import Mathlib

/-!
Verification development for the punchline repository: a shallow embedding of
the core pipeline (instrument model, melody extraction, transposition search,
stave layout) together with theorems checking the specification's claims.

Conventions of the embedding:
* Python ints are `Int`, Python floats that only ever hold exact
  millimetre/tick arithmetic are modelled as `ℚ`.
* Python `%` on ints is `Int.emod`; `int(x / n)` (truncation towards zero)
  is `Int.tdiv`.
* Fallible code (`Note.from_name`, which can raise `ValueError` or fail its
  assertion) returns `Option`.
-/

namespace Punchline

/-! ### Instrument model (src/punchline/_music_box.py) -/

/-- MIDI number used as the anchor of the note-name table (`A0 = 21`). -/
def A0 : Int := 21

/-- The 12-entry note-name table starting at the anchor pitch. -/
def NAMES : List String :=
  ["A", "A#", "B", "C", "C#", "D", "D#", "E", "F", "F#", "G", "G#"]

/-- `Note.letter`: the letter (with `#` when needed) for a MIDI number. -/
def letterOf (number : Int) : String :=
  NAMES.getD ((number - A0) % 12).toNat ("")

/-- `Note.is_sharp`: the note is a semitone (its letter carries `#`). -/
def isSharpNote (number : Int) : Bool :=
  (letterOf number).data.contains '#'

/-- `Note.octave`: `int(self.number / 12) - 2` (truncation towards zero). -/
def octaveOf (number : Int) : Int :=
  number.tdiv 12 - 2

/-- `Note.name`: letter followed by octave. -/
def noteName (number : Int) : String :=
  letterOf number ++ toString (octaveOf number)

/-- `int(c)` on a single character: its digit value, `none` if not a digit. -/
def digitVal (c : Char) : Option Int :=
  if c.isDigit then some ((c.toNat : Int) - 48) else none

/-- `Note.from_name`: parse a full note name such as `C#4`.
`int(name[-1])` raises on a non-digit, `NAMES.index(name[:-1])` raises when
the letter part is absent from the table, and the method finally asserts that
the rendered name round-trips; every failure is modelled as `none`. -/
def fromName (name : String) : Option Int :=
  match name.data.getLast? with
  | none => none
  | some lastChar =>
    match digitVal lastChar with
    | none => none
    | some octave =>
      match NAMES.indexOf? (String.mk name.data.dropLast) with
      | none => none
      | some idx =>
        let number := octave * 12 + ((idx : Int) + A0)
        if noteName number = name then some number else none

/-- Configuration of a `MusicBox` (defaults as in the dataclass). -/
structure MusicBox where
  sharps : Bool := false
  firstNote : String := "C4"
  notesCount : Nat := 15
  reverse : Bool := false
  pitch : ℚ := 2
  paddingTop : ℚ := 6
  paddingBottom : ℚ := 7
  minDistance : ℚ := 8
  preferUp : Bool := false

/-- The note-collection loop of `MusicBox.notes`: starting just above `n`,
keep incrementing the MIDI number, skipping sharps when the box has none,
until `need` notes are collected.  The loop is given explicit fuel; two steps
per note always suffice because two consecutive MIDI numbers are never both
sharp. -/
def buildNotes (sharps : Bool) : Nat → Int → Nat → List Int
  | 0, _, _ => []
  | _ + 1, _, 0 => []
  | fuel + 1, n, need + 1 =>
    if !sharps && isSharpNote (n + 1) then buildNotes sharps fuel (n + 1) (need + 1)
    else (n + 1) :: buildNotes sharps fuel (n + 1) need

/-- The ascending note list collected by `MusicBox.notes` before the final
`reverse` step; `[]` when the first-note name does not parse (in Python the
construction raises instead). -/
def notesAsc (box : MusicBox) : List Int :=
  match fromName box.firstNote with
  | some n0 => buildNotes box.sharps (2 * box.notesCount) (n0 - 1) box.notesCount
  | none => []

/-- `MusicBox._note_data`: the tuple of note numbers in line order.  Note the
`sic!` in the source: the ascending list is reversed when `reverse` is
*false*. -/
def noteData (box : MusicBox) : List Int :=
  if box.reverse then notesAsc box else (notesAsc box).reverse

/-- `MusicBox.contains_note`. -/
def containsNote (box : MusicBox) (note : Int) : Bool :=
  (noteData box).contains note

/-- `MusicBox.get_note_pos`: `list.index`; only ever called on present notes,
where it equals `indexOf`. -/
def getNotePos (box : MusicBox) (note : Int) : Nat :=
  (noteData box).indexOf note

/-- `min(self._note_data)`; `0` is a dummy for the empty box (Python would
raise there, and `notes_count >= 1` rules it out). -/
def minNoteData (box : MusicBox) : Int :=
  match noteData box with
  | [] => 0
  | x :: xs => xs.foldl min x

/-- The candidate notes tried by `MusicBox.guess_note_pos`, in order: octave
shifts `0, -12, 12, -24, 24, -36, 36`, each optionally widened with the
semitone neighbours (up-first or down-first per `prefer_up`) when the note is
sharp and the box has no sharps. -/
def guessCandidates (box : MusicBox) (note : Int) : List Int :=
  [0, -12, 12, -24, 24, -36, 36].flatMap fun trans =>
    let shifted := note + trans
    if isSharpNote note && !box.sharps then
      if box.preferUp then [shifted, shifted + 1, shifted - 1]
      else [shifted, shifted - 1, shifted + 1]
    else [shifted]

/-- `MusicBox.guess_note_pos`: first matching candidate, else an edge line. -/
def guessNotePos (box : MusicBox) (note : Int) : Nat :=
  match (guessCandidates box note).find? (fun g => containsNote box g) with
  | some g => getNotePos box g
  | none =>
    let above : Bool := decide (note < minNoteData box)
    let above : Bool := if box.reverse then !above else above
    if above then box.notesCount - 1 else 0

/-- The default music box (15 notes from C4, no sharps, not reversed). -/
def pyMusicBox : MusicBox := {}

/-! ### Melody extraction (src/punchline/_melody.py) -/

/-- A `Sound` dataclass: note number, absolute tick time, source track. -/
structure Sound where
  note : Int
  time : Int
  track : Nat
deriving DecidableEq

/-- A MIDI message as far as `Melody.sounds` inspects it: its delta time,
whether it is a meta message, whether its type is `note_on`, its velocity
and its note. -/
structure Msg where
  delta : Nat
  isMeta : Bool
  isNoteOn : Bool
  velocity : Nat
  note : Int
deriving DecidableEq

/-- The configuration fields of `Melody` (defaults as in the dataclass);
`selected` models the `tracks` frozenset (default `range(40)`). -/
structure MelodyCfg where
  box : MusicBox
  transposeLower : Int := -100
  transposeUpper : Int := 100
  maxPause : Int := 2000
  startPause : Int := 200
  cutPause : Int := 50000
  transpose : Bool := true
  selected : Nat → Bool := fun i => decide (i < 40)

/-- The `Transposition` dataclass; `fit` is called `ratio` in the source. -/
structure Transposition where
  shift : Int
  fit : ℚ
deriving DecidableEq

/-- The inner message loop of `Melody.sounds` for one track `i`, carrying the
running raw time, the time of the last kept sound (`prev_time`) and the
sound list collected so far (which, as in the source, already contains the
sounds of previously processed tracks).  The `break` on a too-long pause
returns the accumulator unchanged. -/
def processTrack (cfg : MelodyCfg) (i : Nat) :
    List Msg → Int → Int → List Sound → List Sound
  | [], _, _, acc => acc
  | m :: rest, time, prevTime, acc =>
    if m.isMeta then processTrack cfg i rest (time + (m.delta : Int)) prevTime acc
    else if !m.isNoteOn then processTrack cfg i rest (time + (m.delta : Int)) prevTime acc
    else if m.velocity = 0 then processTrack cfg i rest (time + (m.delta : Int)) prevTime acc
    else
      if acc ≠ [] ∧ cfg.cutPause < time + (m.delta : Int) - prevTime then acc
      else
        processTrack cfg i rest
          (prevTime + min cfg.maxPause (time + (m.delta : Int) - prevTime))
          (prevTime + min cfg.maxPause (time + (m.delta : Int) - prevTime))
          (acc ++ [Sound.mk m.note
            (prevTime + min cfg.maxPause (time + (m.delta : Int) - prevTime)) i])

/-- The absolute raw time of the first qualifying `note_on` in a message
list, accumulating deltas from `time` exactly as `processTrack` does. -/
def firstNoteOn : List Msg → Int → Option (Msg × Int)
  | [], _ => none
  | m :: rest, time =>
    if m.isMeta then firstNoteOn rest (time + (m.delta : Int))
    else if !m.isNoteOn then firstNoteOn rest (time + (m.delta : Int))
    else if m.velocity = 0 then firstNoteOn rest (time + (m.delta : Int))
    else some (m, time + (m.delta : Int))

/-- The outer track loop of `Melody.sounds`: enumerate the tracks, process
the selected ones, threading the shared sound list through. -/
def collectSounds (cfg : MelodyCfg) : List (List Msg) → Nat → List Sound → List Sound
  | [], _, acc => acc
  | tr :: rest, i, acc =>
    collectSounds cfg rest (i + 1)
      (if cfg.selected i then processTrack cfg i tr 0 0 acc else acc)

/-- All sounds collected from the selected tracks, before the time shift. -/
def rawSounds (cfg : MelodyCfg) (tracks : List (List Msg)) : List Sound :=
  collectSounds cfg tracks 0 []

/-- The fixed-leading-silence shift of `Melody.sounds`: when non-empty,
every time is shifted by `start_pause - min(times)`. -/
def shiftedSounds (cfg : MelodyCfg) (tracks : List (List Msg)) : List Sound :=
  match rawSounds cfg tracks with
  | [] => []
  | s0 :: rest =>
    ((s0 :: rest).map fun s =>
      Sound.mk s.note
        (s.time + (cfg.startPause - ((s0 :: rest).map Sound.time).foldl min s0.time))
        s.track)

/-- `Melody.sounds`: the shifted sounds, stably sorted by time. -/
def melodySounds (cfg : MelodyCfg) (tracks : List (List Msg)) : List Sound :=
  (shiftedSounds cfg tracks).mergeSort fun a b => decide (a.time ≤ b.time)

/-- `Melody.notes_use`: how many sounds exist per note (the `Counter`),
as an association list in first-occurrence order. -/
def notesUse (sounds : List Sound) : List (Int × Nat) :=
  ((sounds.map Sound.note).dedup).map fun n => (n, (sounds.map Sound.note).count n)

/-- `Melody.count_available_sounds`: total use count of the notes that land
exactly on the music box after shifting by `trans`. -/
def countAvailableSounds (cfg : MelodyCfg) (sounds : List Sound) (trans : Int) : Nat :=
  ((notesUse sounds).map fun p =>
    if containsNote cfg.box (p.1 + trans) then p.2 else 0).sum

/-- The score `count_available_sounds(shift) / sounds_count` as an exact
rational (the source computes it in floating point). -/
def fitOf (cfg : MelodyCfg) (sounds : List Sound) (shift : Int) : ℚ :=
  (countAvailableSounds cfg sounds shift : ℚ) / (sounds.length : ℚ)

/-- The scan loop of `Melody._get_best_transpose`: strict improvement keeps
the earliest best; an exact score of 1 returns immediately. -/
def transposeFold (cfg : MelodyCfg) (sounds : List Sound) :
    List Int → Transposition → Transposition
  | [], best => best
  | shift :: rest, best =>
    if fitOf cfg sounds shift = 1 then Transposition.mk shift 1
    else if best.fit < fitOf cfg sounds shift then
      transposeFold cfg sounds rest (Transposition.mk shift (fitOf cfg sounds shift))
    else transposeFold cfg sounds rest best

/-- `Melody._get_best_transpose`: `(0, 1)` for an empty melody, otherwise
the scan starting from the sentinel `(0, 0)`. -/
def getBestTranspose (cfg : MelodyCfg) (sounds : List Sound) (seq : List Int) :
    Transposition :=
  if sounds.length = 0 then Transposition.mk 0 1
  else transposeFold cfg sounds seq (Transposition.mk 0 0)

/-- Python `range(lo, hi, step)` for a positive step. -/
def pyRange (lo hi step : Int) : List Int :=
  (List.range ((hi - lo + step - 1) / step).toNat).map fun i => lo + step * (i : Int)

/-- The octave-aligned shift sequence of `Melody.best_transpose`:
`range(int(transpose_lower / 12) * 12, transpose_upper, 12)` (note the
truncation towards zero and the exclusive upper bound). -/
def octaveSeq (cfg : MelodyCfg) : List Int :=
  pyRange (cfg.transposeLower.tdiv 12 * 12) cfg.transposeUpper 12

/-- The full shift sequence of `Melody.best_transpose`:
`range(transpose_lower, transpose_upper)`. -/
def fullSeq (cfg : MelodyCfg) : List Int :=
  pyRange cfg.transposeLower cfg.transposeUpper 1

/-- `Melody.best_transpose`: the octave-aligned search result if its score
is at least 0.90 or full transposition is disabled, otherwise the full
search result. -/
def bestTranspose (cfg : MelodyCfg) (sounds : List Sound) : Transposition :=
  if (9 : ℚ) / 10 ≤ (getBestTranspose cfg sounds (octaveSeq cfg)).fit then
    getBestTranspose cfg sounds (octaveSeq cfg)
  else if cfg.transpose = false then getBestTranspose cfg sounds (octaveSeq cfg)
  else getBestTranspose cfg sounds (fullSeq cfg)

/-! ### Stave layout (src/punchline/_staves.py) -/

/-- The configuration fields of `Staves` that the layout loop uses
(defaults as in the dataclass). -/
structure StavesCfg where
  box : MusicBox
  margin : ℚ := 5
  speed : ℚ := 67
  pageWidth : ℚ := 297
  pageHeight : ℚ := 210
  startWidth : ℚ := 3

/-- `MusicBox.width`: distance between the edge notes. -/
def boxWidth (box : MusicBox) : ℚ :=
  ((box.notesCount : ℚ) - 1) * box.pitch

/-- `Staves.stave_width`: box width plus both paddings. -/
def staveWidth (c : StavesCfg) : ℚ :=
  boxWidth c.box + c.box.paddingBottom + c.box.paddingTop

/-- `Staves.staves_per_page`: `floor((page_height - 2 margin) / stave_width)`. -/
def stavesPerPage (c : StavesCfg) : Nat :=
  (⌊(c.pageHeight - c.margin * 2) / staveWidth c⌋).toNat

/-- `Staves.stave_length`: `page_width - 2 margin`. -/
def staveLength (c : StavesCfg) : ℚ :=
  c.pageWidth - c.margin * 2

/-- `Melody.max_time`: the time of the last sound, `0` when empty. -/
def maxTimeOf : List Sound → Int
  | [] => 0
  | s :: rest => rest.foldl (fun a t => max a t.time) s.time

/-- `Staves.total_length`: `max_time / speed + start_width`. -/
def totalLength (c : StavesCfg) (sounds : List Sound) : ℚ :=
  (maxTimeOf sounds : ℚ) / c.speed + c.startWidth

/-- `Staves.staves_count`: `ceil(total_length / stave_length)`. -/
def stavesCount (c : StavesCfg) (sounds : List Sound) : Nat :=
  (⌈totalLength c sounds / staveLength c⌉).toNat

/-- `Staves.pages_count`: `ceil(staves_count / staves_per_page)`. -/
def pagesCount (c : StavesCfg) (sounds : List Sound) : Nat :=
  (⌈(stavesCount c sounds : ℚ) / (stavesPerPage c : ℚ)⌉).toNat

/-- One emitted punch circle: its horizontal offset in the stave, its line
position, whether it was filled black (exactly representable note; red means
`guess_note_pos` fallback) and whether it was outlined as "too close". -/
structure Punch where
  soundOffset : ℚ
  notePos : Nat
  fillBlack : Bool
  tooClose : Bool
deriving DecidableEq

/-- The `try get_note_pos / except guess_note_pos` placement of
`Staves._write_stave`: line position plus whether the note was exact. -/
def resolveNote (box : MusicBox) (n : Int) : Nat × Bool :=
  if containsNote box n then (getNotePos box n, true) else (guessNotePos box n, false)

/-- The `latest_notes` update of `Staves._write_stave`: `stroke` stays
`None` (and the tracked offset for the line is overwritten with the current
one) unless a previous offset exists on the line and the current punch is
within `min_distance` of it. -/
def trackerUpdate (c : StavesCfg) (pos : Nat) (so : ℚ) (latest : Nat → Option ℚ) :
    Nat → Option ℚ :=
  match latest pos with
  | some prev =>
    if so - prev < c.box.minDistance then latest
    else fun p => if p = pos then some so else latest p
  | none => fun p => if p = pos then some so else latest p

/-- Whether the punch is outlined instead of filled ("too close"): a
previous offset is tracked on the line and the current punch is within
`min_distance` of it. -/
def tooCloseFlag (c : StavesCfg) (pos : Nat) (so : ℚ) (latest : Nat → Option ℚ) : Bool :=
  match latest pos with
  | some prev => decide (so - prev < c.box.minDistance)
  | none => false

/-- The per-sound loop of `Staves._write_stave`: emit punches while the
offset stays within the stave, tracking per line position the offset of the
most recent punch that was not flagged "too close" (`latest_notes`).
The loop carries the source's three assertions on the punched sounds
(`assert sound_offset >= 0` before the break test, then
`assert note_number > 0` and `assert note_number < 1000`); a failing
assertion raises `AssertionError` and aborts the whole write, modelled as
`none`.  (The remaining asserts of `_write_stave` are either trivially true
— `fill in ("red", "black")`, `offset >= 0` — or concern the caption/line
drawing, not the punch loop.) -/
def writeStaveLoop (c : StavesCfg) (trans : Int) (offsetTime : ℚ) :
    List Sound → (Nat → Option ℚ) → Option (List Punch)
  | [], _ => some []
  | s :: rest, latest =>
    if ¬ (0 ≤ (s.time : ℚ) / c.speed - offsetTime) then none
    else if (s.time : ℚ) / c.speed - offsetTime > staveLength c then some []
    else if ¬ (0 < s.note + trans) then none
    else if ¬ (s.note + trans < 1000) then none
    else
      match writeStaveLoop c trans offsetTime rest
        (trackerUpdate c (resolveNote c.box (s.note + trans)).1
          ((s.time : ℚ) / c.speed - offsetTime) latest) with
      | none => none
      | some ps =>
        some ((Punch.mk ((s.time : ℚ) / c.speed - offsetTime)
          (resolveNote c.box (s.note + trans)).1
          (resolveNote c.box (s.note + trans)).2
          (tooCloseFlag c (resolveNote c.box (s.note + trans)).1
            ((s.time : ℚ) / c.speed - offsetTime) latest)) :: ps)

/-- The punches of global stave number `k` starting at sound cursor
`offset`: `_write_stave` iterates `melody.sounds[offset:]` against
`offset_time = k * stave_length - start_width` with a fresh `latest_notes`
dictionary; `none` when one of the loop's assertions fails. -/
def stavePunches (c : StavesCfg) (trans : Int) (sounds : List Sound)
    (k : Nat) (offset : Nat) : Option (List Punch) :=
  writeStaveLoop c trans ((k : ℚ) * staveLength c - c.startWidth)
    (sounds.drop offset) (fun _ => none)

/-- The stave loop of `Staves._write_page` over the given stave indices of
page `page`, threading the sound cursor and collecting each stave's punches;
it breaks once the cursor reaches `sounds_count`, and an `AssertionError`
raised inside a stave (`none`) aborts the whole write. -/
def pageLoop (c : StavesCfg) (trans : Int) (sounds : List Sound) (page : Nat) :
    List Nat → Nat × List (List Punch) → Option (Nat × List (List Punch))
  | [], st => some st
  | stave :: rest, st =>
    match stavePunches c trans sounds (page * stavesPerPage c + stave) st.1 with
    | none => none
    | some ps =>
      if sounds.length ≤ st.1 + ps.length then some (st.1 + ps.length, st.2 ++ [ps])
      else pageLoop c trans sounds page rest (st.1 + ps.length, st.2 ++ [ps])

/-- One page of `Staves.write`: run the page's staves unless an earlier
page already aborted. -/
def pagesStep (c : StavesCfg) (trans : Int) (sounds : List Sound)
    (ost : Option (Nat × List (List Punch))) (page : Nat) :
    Option (Nat × List (List Punch)) :=
  match ost with
  | none => none
  | some st => pageLoop c trans sounds page (List.range (stavesPerPage c)) st

/-- `Staves.write`: run every page in order, each page running its staves,
starting from cursor `0`; returns the final cursor and all per-stave punch
lists, or `none` when an assertion aborted the write. -/
def writeAllPages (c : StavesCfg) (trans : Int) (sounds : List Sound) :
    Option (Nat × List (List Punch)) :=
  (List.range (pagesCount c sounds)).foldl (pagesStep c trans sounds) (some (0, []))

/-! ### Specification-side helpers used by the layout theorems -/

/-- A sound fits within the first `k` staves: its horizontal position
(time over speed, plus the leading-triangle width) is at most `k` stave
lengths. -/
def fitsB (c : StavesCfg) (k : Nat) (s : Sound) : Bool :=
  decide ((s.time : ℚ) / c.speed + c.startWidth ≤ (k : ℚ) * staveLength c)

/-- How many of the sounds fit within the first `k` staves. -/
def placedCount (c : StavesCfg) (sounds : List Sound) (k : Nat) : Nat :=
  sounds.countP (fitsB c k)

/-! ### Concrete configurations used by counterexamples and witnesses -/

/-- The default melody configuration over the default box. -/
def dMelodyCfg : MelodyCfg := { box := pyMusicBox }

/-- The configuration of the C3 counterexample: transpose range `[1, 13]`. -/
def cexMelodyCfg : MelodyCfg :=
  { box := pyMusicBox, transposeLower := 1, transposeUpper := 13 }

/-- The configuration of the C3 witness: transpose range `[0, 1]`, so the
octave-aligned sequence is just `[0]`. -/
def witMelodyCfg : MelodyCfg :=
  { box := pyMusicBox, transposeLower := 0, transposeUpper := 1 }

/-- A concrete two-message track whose second note-on is 3000 ticks after
the first (beyond the default `max_pause` of 2000). -/
def wTracks : List (List Msg) :=
  [[Msg.mk 0 false true 100 60, Msg.mk 3000 false true 100 62]]

/-- The staves configuration used by the layout witnesses: the default page
geometry with a speed of 1 tick per mm over the default box. -/
def wStave2 : StavesCfg := { box := pyMusicBox, speed := 1 }

/-- The sounds used by the C1 witness: two sounds that land on different
staves of a 10 mm stave length. -/
def wSounds : List Sound := [Sound.mk 72 2 0, Sound.mk 72 12 0]

/-- The staves configuration used by the C1 witness: page width 20 mm with
the default 5 mm margin gives a stave length of 10 mm. -/
def wStave1 : StavesCfg := { box := pyMusicBox, speed := 1, pageWidth := 20 }

/-- The staves configuration of the C1 counterexample: a 10 mm stave at
speed 100, so a sound at tick 200 lands on the very first stave. -/
def wStaveCex : StavesCfg := { box := pyMusicBox, speed := 100, pageWidth := 20 }

end Punchline

namespace Punchline

/-! ### Basic lemmas about the instrument model -/

theorem isSharpNote_eq_decide (n : Int) :
    isSharpNote n = decide ((n - A0) % 12 = 1 ∨ (n - A0) % 12 = 4 ∨
      (n - A0) % 12 = 6 ∨ (n - A0) % 12 = 9 ∨ (n - A0) % 12 = 11) := by
  unfold isSharpNote letterOf
  have h0 : 0 ≤ (n - A0) % 12 := Int.emod_nonneg _ (by norm_num)
  have h1 : (n - A0) % 12 < 12 := Int.emod_lt_of_pos _ (by norm_num)
  obtain ⟨r, hr, hr0, hr12⟩ : ∃ r, (n - A0) % 12 = r ∧ 0 ≤ r ∧ r < 12 :=
    ⟨_, rfl, h0, h1⟩
  rw [hr]
  interval_cases r <;> decide

theorem isSharpNote_succ {n : Int} (h : isSharpNote n = true) :
    isSharpNote (n + 1) = false := by
  rw [isSharpNote_eq_decide, decide_eq_false_iff_not]
  rw [isSharpNote_eq_decide, decide_eq_true_eq] at h
  omega

theorem buildNotes_spec (sharps : Bool) :
    ∀ (need fuel : Nat) (n : Int), 2 * need ≤ fuel →
      (buildNotes sharps fuel n need).length = need ∧
      List.Chain' (· < ·) (buildNotes sharps fuel n need) ∧
      ∀ x ∈ buildNotes sharps fuel n need, n < x := by
  intro need
  induction need with
  | zero =>
    intro fuel n _
    cases fuel <;> simp [buildNotes]
  | succ k ih =>
    intro fuel n hfuel
    match fuel, hfuel with
    | fuel + 1, hfuel =>
      by_cases hsh : (!sharps && isSharpNote (n + 1)) = true
      · -- sharp is skipped; the very next number cannot be sharp again
        have hns : isSharpNote (n + 2) = false := by
          have := @isSharpNote_succ (n + 1) (by
            cases sharps <;> simp_all)
          simpa [add_assoc] using this
        match fuel, hfuel with
        | fuel + 1, hfuel =>
          have hstep : buildNotes sharps (fuel + 1 + 1) n (k + 1)
              = buildNotes sharps (fuel + 1) (n + 1) (k + 1) := by
            simp [buildNotes, hsh]
          have hsh2 : (!sharps && isSharpNote (n + 1 + 1)) = false := by
            have : n + 1 + 1 = n + 2 := by ring
            rw [this, hns]
            cases sharps <;> simp
          have hstep2 : buildNotes sharps (fuel + 1) (n + 1) (k + 1)
              = (n + 1 + 1) :: buildNotes sharps fuel (n + 1 + 1) k := by
            simp [buildNotes, hsh2]
          obtain ⟨hlen, hchain, hmem⟩ := ih fuel (n + 1 + 1) (by omega)
          refine ⟨?_, ?_, ?_⟩
          · rw [hstep, hstep2]; simp [hlen]
          · rw [hstep, hstep2]
            rw [List.chain'_cons']
            exact ⟨fun y hy => hmem y (List.mem_of_mem_head? hy), hchain⟩
          · rw [hstep, hstep2]
            intro x hx
            rcases List.mem_cons.mp hx with h | h
            · omega
            · have := hmem x h; omega
      · have hstep : buildNotes sharps (fuel + 1) n (k + 1)
            = (n + 1) :: buildNotes sharps fuel (n + 1) k := by
          simp [buildNotes, hsh]
        obtain ⟨hlen, hchain, hmem⟩ := ih fuel (n + 1) (by omega)
        refine ⟨?_, ?_, ?_⟩
        · rw [hstep]; simp [hlen]
        · rw [hstep, List.chain'_cons']
          exact ⟨fun y hy => hmem y (List.mem_of_mem_head? hy), hchain⟩
        · rw [hstep]
          intro x hx
          rcases List.mem_cons.mp hx with h | h
          · omega
          · have := hmem x h; omega

theorem notesAsc_length (box : MusicBox) {n0 : Int}
    (h : fromName box.firstNote = some n0) :
    (notesAsc box).length = box.notesCount := by
  unfold notesAsc
  rw [h]
  exact (buildNotes_spec box.sharps box.notesCount (2 * box.notesCount) (n0 - 1)
    (by omega)).1

theorem noteData_length (box : MusicBox) {n0 : Int}
    (h : fromName box.firstNote = some n0) :
    (noteData box).length = box.notesCount := by
  unfold noteData
  cases box.reverse <;> simp [notesAsc_length box h]

theorem noteData_length_of_mem {box : MusicBox} {g : Int}
    (h : g ∈ noteData box) : (noteData box).length = box.notesCount := by
  cases hn : fromName box.firstNote with
  | none =>
    exfalso
    have hempty : noteData box = [] := by
      unfold noteData notesAsc
      rw [hn]
      cases box.reverse <;> simp
    rw [hempty] at h
    exact absurd h (List.not_mem_nil g)
  | some n0 => exact noteData_length box hn

theorem mem_of_containsNote {box : MusicBox} {g : Int}
    (h : containsNote box g = true) : g ∈ noteData box := by
  unfold containsNote at h
  simpa using h

/-! ### Claim C2 -/

/-- C2 counterexample: the claim says the note sequence is strictly
increasing in pitch when the reverse flag is off, but for the default
box (`reverse = False`, 15 notes from C4) the line-ordered note numbers are
strictly *decreasing* — the source reverses the ascending list exactly when
`reverse` is false (the `sic!` comment in `MusicBox.notes`). -/
theorem C2_counterexample_default_box :
    pyMusicBox.reverse = false ∧ pyMusicBox.notesCount = 15 ∧
    ¬ List.Chain' (· < ·) (noteData pyMusicBox) := by
  refine ⟨rfl, rfl, ?_⟩
  intro hch
  have hdata : noteData pyMusicBox
      = [96, 95, 93, 91, 89, 88, 86, 84, 83, 81, 79, 77, 76, 74, 72] := by decide
  rw [hdata, List.chain'_cons] at hch
  omega

/-- C2 (amended): for every music box whose first-note name parses, the
constructed note sequence has exactly `notes_count` notes, and it is
strictly *decreasing* in pitch when the reverse flag is off and strictly
*increasing* when the reverse flag is on. -/
theorem C2_notes_order_amended (box : MusicBox) (n0 : Int)
    (hname : fromName box.firstNote = some n0) :
    (noteData box).length = box.notesCount ∧
    (box.reverse = true → List.Chain' (· < ·) (noteData box)) ∧
    (box.reverse = false → List.Chain' (· > ·) (noteData box)) := by
  have hspec := buildNotes_spec box.sharps box.notesCount (2 * box.notesCount)
    (n0 - 1) (by omega)
  have hasc : notesAsc box
      = buildNotes box.sharps (2 * box.notesCount) (n0 - 1) box.notesCount := by
    unfold notesAsc
    rw [hname]
  refine ⟨noteData_length box hname, ?_, ?_⟩
  · intro hrev
    unfold noteData
    rw [hrev, if_pos rfl, hasc]
    exact hspec.2.1
  · intro hrev
    unfold noteData
    rw [hrev]
    simp only [Bool.false_eq_true, if_false]
    rw [List.chain'_reverse]
    have := hspec.2.1
    rw [hasc]
    exact List.Chain'.imp (fun a b hab => hab) this

/-- Witness for C2 (amended) at the default box: 15 notes, strictly
decreasing since `reverse` is off. -/
theorem C2_notes_order_amended_witness :
    (noteData pyMusicBox).length = pyMusicBox.notesCount ∧
    List.Chain' (· > ·) (noteData pyMusicBox) := by
  refine ⟨(C2_notes_order_amended pyMusicBox 72 (by decide)).1, ?_⟩
  exact (C2_notes_order_amended pyMusicBox 72 (by decide)).2.2 rfl

/-! ### Claim C7 -/

/-- C7: for every music box with `notes_count >= 1` and every pitch,
`guess_note_pos` is total and returns a line position in
`[0, notes_count - 1]`; it returns the position of the first matching
candidate in the fixed search order (octave shifts `0, ±12, ±24, ±36`, each
widened by the `prefer_up`-ordered semitone neighbours when the pitch is
sharp and the box lacks sharps), and when nothing matches it returns the
edge: line 0 (top) when the pitch is not below the instrument's lowest note,
line `notes_count - 1` (bottom) when it is — both inverted when reversed. -/
theorem C7_guess_note_pos_total (box : MusicBox) (note : Int)
    (hc : 1 ≤ box.notesCount) :
    guessNotePos box note < box.notesCount ∧
    (∀ g, (guessCandidates box note).find? (fun g => containsNote box g) = some g →
      guessNotePos box note = getNotePos box g) ∧
    ((guessCandidates box note).find? (fun g => containsNote box g) = none →
      guessNotePos box note =
        if ((decide (note < minNoteData box)).xor box.reverse) = true
        then box.notesCount - 1 else 0) := by
  refine ⟨?_, ?_, ?_⟩
  · unfold guessNotePos
    cases hf : (guessCandidates box note).find? (fun g => containsNote box g) with
    | none =>
      simp only
      cases hrev : box.reverse <;> cases hlt : decide (note < minNoteData box) <;>
        simp <;> omega
    | some g =>
      have hcont : containsNote box g = true := List.find?_some hf
      have hmem : g ∈ noteData box := mem_of_containsNote hcont
      have hlen : (noteData box).length = box.notesCount := noteData_length_of_mem hmem
      simp only
      unfold getNotePos
      rw [← hlen]
      exact List.indexOf_lt_length.mpr hmem
  · intro g hf
    unfold guessNotePos
    rw [hf]
  · intro hf
    unfold guessNotePos
    rw [hf]
    simp only
    cases hrev : box.reverse <;> cases hlt : decide (note < minNoteData box) <;> simp

/-- Witness for C7 at the default box and pitch 61 (a sharp absent from the
box): the returned position is within range. -/
theorem C7_guess_note_pos_total_witness :
    1 ≤ pyMusicBox.notesCount ∧ guessNotePos pyMusicBox 61 < pyMusicBox.notesCount :=
  ⟨by decide, (C7_guess_note_pos_total pyMusicBox 61 (by decide)).1⟩

/-! ### Claim C8 -/

/-- C8 counterexample: the claim says every well-formed note name (a table
letter, optional `#`, octave digit) parses and round-trips, citing `A4`;
but `Note.from_name('A4')` fails its own round-trip assertion, because the
octave helper maps MIDI 69 to the rendered name `A3`.  The model returns
`none` where the source raises `AssertionError`. -/
theorem C8_counterexample_A4 : fromName ("A4") = none := by decide

/-- C8 (amended): a malformed name never parses (whenever `from_name`
succeeds, the rendered name equals the input, so anything that is not the
canonical rendering of a note fails at construction); and every well-formed
name whose letter is one of the table entries `C, C#, D, D#, E, F, F#, G,
G#` (table index 3 through 11) followed by an octave digit parses and
round-trips.  Every well-formed name whose letter is `A`, `A#` or `B`
(index 0 through 2) fails the round-trip assertion, whatever its octave
digit: the octave helper renders the note one octave lower than the name
that produced it. -/
theorem C8_note_name_amended :
    (∀ name n, fromName name = some n → noteName n = name) ∧
    (∀ idx d : Nat, 3 ≤ idx → idx < 12 → d < 10 →
      fromName (NAMES.getD idx ("") ++ toString d)
          = some (12 * (d : Int) + (idx : Int) + A0) ∧
      noteName (12 * (d : Int) + (idx : Int) + A0)
          = NAMES.getD idx ("") ++ toString d) ∧
    (∀ idx d : Nat, idx < 3 → d < 10 →
      fromName (NAMES.getD idx ("") ++ toString d) = none) := by
  refine ⟨?_, ?_, ?_⟩
  · intro name n h
    unfold fromName at h
    cases hL : name.data.getLast? with
    | none => rw [hL] at h; simp at h
    | some c =>
      rw [hL] at h
      dsimp only at h
      cases hd : digitVal c with
      | none => rw [hd] at h; simp at h
      | some oct =>
        rw [hd] at h
        dsimp only at h
        cases hi : NAMES.indexOf? (String.mk name.data.dropLast) with
        | none => rw [hi] at h; simp at h
        | some idx =>
          rw [hi] at h
          dsimp only at h
          split at h
          · rename_i hguard
            rw [Option.some_inj] at h
            rw [← h]
            exact hguard
          · simp at h
  · intro idx d h3 h12 h10
    interval_cases idx <;> interval_cases d <;> exact ⟨by decide, by decide⟩
  · intro idx d h3 h10
    interval_cases idx <;> interval_cases d <;> decide

/-- Witness for C8 (amended): `C4` parses to MIDI 72 and round-trips, while
`A4` (table index 0, octave digit 4) fails to parse. -/
theorem C8_note_name_amended_witness :
    (fromName (NAMES.getD 3 ("") ++ toString 4) = some (12 * (4 : Int) + (3 : Int) + A0) ∧
      noteName (12 * (4 : Int) + (3 : Int) + A0) = NAMES.getD 3 ("") ++ toString 4) ∧
    fromName (NAMES.getD 0 ("") ++ toString 4) = none :=
  ⟨C8_note_name_amended.2.1 3 4 (by decide) (by decide) (by decide),
    C8_note_name_amended.2.2 0 4 (by decide) (by decide)⟩

/-! ### Transposition search lemmas -/

theorem countAvailableSounds_le (cfg : MelodyCfg) (sounds : List Sound) (trans : Int) :
    countAvailableSounds cfg sounds trans ≤ sounds.length := by
  unfold countAvailableSounds notesUse
  calc ((((sounds.map Sound.note).dedup).map fun n =>
          (n, (sounds.map Sound.note).count n)).map fun p =>
            if containsNote cfg.box (p.1 + trans) then p.2 else 0).sum
      ≤ ((((sounds.map Sound.note).dedup).map fun n =>
          (n, (sounds.map Sound.note).count n)).map fun p => p.2).sum := by
        apply List.sum_le_sum
        intro p _
        split <;> omega
    _ = (sounds.map Sound.note).length := by
        rw [List.map_map]
        simpa using List.sum_map_count_dedup_eq_length (sounds.map Sound.note)
    _ = sounds.length := List.length_map sounds Sound.note

theorem fitOf_nonneg (cfg : MelodyCfg) (sounds : List Sound) (shift : Int) :
    0 ≤ fitOf cfg sounds shift := by
  unfold fitOf
  positivity

theorem fitOf_le_one (cfg : MelodyCfg) {sounds : List Sound} (h : sounds ≠ [])
    (shift : Int) : fitOf cfg sounds shift ≤ 1 := by
  unfold fitOf
  have hlen : 0 < sounds.length := List.length_pos.mpr h
  have hle := countAvailableSounds_le cfg sounds shift
  rw [div_le_one (by exact_mod_cast hlen)]
  exact_mod_cast hle

theorem transposeFold_fit_mono (cfg : MelodyCfg) {sounds : List Sound}
    (hne : sounds ≠ []) :
    ∀ (seq : List Int) (best : Transposition), best.fit < 1 →
      best.fit ≤ (transposeFold cfg sounds seq best).fit := by
  intro seq
  induction seq with
  | nil => intro best h1; exact le_refl _
  | cons shift rest ih =>
    intro best h1
    unfold transposeFold
    by_cases hone : fitOf cfg sounds shift = 1
    · rw [if_pos hone]
      exact le_of_lt h1
    · rw [if_neg hone]
      by_cases himp : best.fit < fitOf cfg sounds shift
      · rw [if_pos himp]
        have hlt1 : fitOf cfg sounds shift < 1 :=
          lt_of_le_of_ne (fitOf_le_one cfg hne shift) hone
        exact le_trans (le_of_lt himp) (ih _ hlt1)
      · rw [if_neg himp]
        exact ih best h1

theorem transposeFold_fit_lt_one (cfg : MelodyCfg) {sounds : List Sound}
    (hne : sounds ≠ []) :
    ∀ (seq : List Int) (best : Transposition), best.fit < 1 →
      (transposeFold cfg sounds seq best).fit ≤ 1 := by
  intro seq
  induction seq with
  | nil => intro best h1; exact le_of_lt h1
  | cons shift rest ih =>
    intro best h1
    unfold transposeFold
    by_cases hone : fitOf cfg sounds shift = 1
    · rw [if_pos hone]
    · rw [if_neg hone]
      by_cases himp : best.fit < fitOf cfg sounds shift
      · rw [if_pos himp]
        exact ih _ (lt_of_le_of_ne (fitOf_le_one cfg hne shift) hone)
      · rw [if_neg himp]
        exact ih best h1

theorem transposeFold_dominates (cfg : MelodyCfg) {sounds : List Sound}
    (hne : sounds ≠ []) :
    ∀ (seq : List Int) (best : Transposition), best.fit < 1 →
      ∀ s ∈ seq, fitOf cfg sounds s ≤ (transposeFold cfg sounds seq best).fit := by
  intro seq
  induction seq with
  | nil => intro best _ s hs; exact absurd hs (List.not_mem_nil s)
  | cons shift rest ih =>
    intro best h1 s hs
    unfold transposeFold
    by_cases hone : fitOf cfg sounds shift = 1
    · rw [if_pos hone]
      exact fitOf_le_one cfg hne s
    · rw [if_neg hone]
      have hlt1 : fitOf cfg sounds shift < 1 :=
        lt_of_le_of_ne (fitOf_le_one cfg hne shift) hone
      rcases List.mem_cons.mp hs with hhead | htail
      · subst hhead
        by_cases himp : best.fit < fitOf cfg sounds s
        · rw [if_pos himp]
          exact transposeFold_fit_mono cfg hne rest _ hlt1
        · rw [if_neg himp]
          push_neg at himp
          exact le_trans himp (transposeFold_fit_mono cfg hne rest best h1)
      · by_cases himp : best.fit < fitOf cfg sounds shift
        · rw [if_pos himp]
          exact ih _ hlt1 s htail
        · rw [if_neg himp]
          exact ih best h1 s htail

theorem transposeFold_stay (cfg : MelodyCfg) {sounds : List Sound}
    (hne : sounds ≠ []) :
    ∀ (seq : List Int) (best : Transposition), best.fit < 1 →
      (transposeFold cfg sounds seq best).fit ≤ best.fit →
      transposeFold cfg sounds seq best = best := by
  intro seq
  induction seq with
  | nil => intro best _ _; rfl
  | cons shift rest ih =>
    intro best h1 hle
    unfold transposeFold at hle ⊢
    by_cases hone : fitOf cfg sounds shift = 1
    · rw [if_pos hone] at hle
      exact absurd hle (by simp only; push_neg; exact h1)
    · rw [if_neg hone] at hle ⊢
      by_cases himp : best.fit < fitOf cfg sounds shift
      · rw [if_pos himp] at hle
        exfalso
        have hlt1 : fitOf cfg sounds shift < 1 :=
          lt_of_le_of_ne (fitOf_le_one cfg hne shift) hone
        have := transposeFold_fit_mono cfg hne rest
          (Transposition.mk shift (fitOf cfg sounds shift)) hlt1
        simp only at this
        exact absurd (lt_of_lt_of_le himp this) (by push_neg; exact hle)
      · rw [if_neg himp] at hle ⊢
        exact ih best h1 hle

theorem transposeFold_first_max (cfg : MelodyCfg) {sounds : List Sound}
    (hne : sounds ≠ []) :
    ∀ (seq : List Int) (best : Transposition), best.fit < 1 →
      best.fit < (transposeFold cfg sounds seq best).fit →
      ∃ pre post, seq = pre ++ (transposeFold cfg sounds seq best).shift :: post ∧
        fitOf cfg sounds (transposeFold cfg sounds seq best).shift
          = (transposeFold cfg sounds seq best).fit ∧
        ∀ t ∈ pre, fitOf cfg sounds t < (transposeFold cfg sounds seq best).fit := by
  intro seq
  induction seq with
  | nil =>
    intro best _ himp
    rw [show transposeFold cfg sounds [] best = best from rfl] at himp
    exact absurd himp (lt_irrefl _)
  | cons shift rest ih =>
    intro best h1 himp
    rw [show transposeFold cfg sounds (shift :: rest) best =
      (if fitOf cfg sounds shift = 1 then Transposition.mk shift 1
        else if best.fit < fitOf cfg sounds shift then
          transposeFold cfg sounds rest (Transposition.mk shift (fitOf cfg sounds shift))
        else transposeFold cfg sounds rest best) from rfl] at himp ⊢
    by_cases hone : fitOf cfg sounds shift = 1
    · rw [if_pos hone] at himp ⊢
      exact ⟨[], rest, rfl, hone, by intro t ht; exact absurd ht (List.not_mem_nil t)⟩
    · rw [if_neg hone] at himp ⊢
      have hlt1 : fitOf cfg sounds shift < 1 :=
        lt_of_le_of_ne (fitOf_le_one cfg hne shift) hone
      by_cases hupd : best.fit < fitOf cfg sounds shift
      · rw [if_pos hupd] at himp ⊢
        by_cases hagain : fitOf cfg sounds shift <
            (transposeFold cfg sounds rest
              (Transposition.mk shift (fitOf cfg sounds shift))).fit
        · obtain ⟨pre, post, hdec, hfit, hpre⟩ := ih
            (Transposition.mk shift (fitOf cfg sounds shift)) hlt1 (by simpa using hagain)
          refine ⟨shift :: pre, post, by rw [List.cons_append, ← hdec], hfit, ?_⟩
          intro t ht
          rcases List.mem_cons.mp ht with hh | hh
          · subst hh; exact hagain
          · exact hpre t hh
        · push_neg at hagain
          have hstay := transposeFold_stay cfg hne rest
            (Transposition.mk shift (fitOf cfg sounds shift)) hlt1 (by simpa using hagain)
          rw [hstay]
          exact ⟨[], rest, rfl, rfl, by intro t ht; exact absurd ht (List.not_mem_nil t)⟩
      · rw [if_neg hupd] at himp ⊢
        push_neg at hupd
        obtain ⟨pre, post, hdec, hfit, hpre⟩ := ih best h1 himp
        refine ⟨shift :: pre, post, by rw [List.cons_append, ← hdec], hfit, ?_⟩
        intro t ht
        rcases List.mem_cons.mp ht with hh | hh
        · subst hh; exact lt_of_le_of_lt hupd himp
        · exact hpre t hh

/-! ### Claim C3 -/

/-- C3 counterexample: the claim says the first search scores only
octave-aligned shifts lying within `[transpose_lower, transpose_upper]`;
but with `transpose_lower = 1`, `transpose_upper = 13` and a melody that a
shift of 0 fits perfectly, `best_transpose` returns shift 0 — the code
builds `range(int(lower / 12) * 12, upper, 12)`, whose start
`int(1 / 12) * 12 = 0` lies below the configured lower bound. -/
theorem transposeFold_cons_one {cfg : MelodyCfg} {sounds : List Sound}
    {shift : Int} {rest : List Int} {best : Transposition}
    (h : fitOf cfg sounds shift = 1) :
    transposeFold cfg sounds (shift :: rest) best = Transposition.mk shift 1 := by
  unfold transposeFold
  rw [if_pos h]

theorem fitOf_eval {cfg : MelodyCfg} {sounds : List Sound} {shift : Int}
    {a b : Nat} (ha : countAvailableSounds cfg sounds shift = a)
    (hb : sounds.length = b) : fitOf cfg sounds shift = (a : ℚ) / (b : ℚ) := by
  unfold fitOf
  rw [ha, hb]

theorem C3_counterexample_range :
    bestTranspose cexMelodyCfg [Sound.mk 72 200 0] = Transposition.mk 0 1 ∧
    (Transposition.mk 0 1).shift < cexMelodyCfg.transposeLower := by
  have hfit : fitOf cexMelodyCfg [Sound.mk 72 200 0] 0 = 1 := by
    rw [@fitOf_eval cexMelodyCfg [Sound.mk 72 200 0] 0 1 1 (by decide) (by decide)]
    norm_num
  have hseq : octaveSeq cexMelodyCfg = [0, 12] := by decide
  have hbo : getBestTranspose cexMelodyCfg [Sound.mk 72 200 0] (octaveSeq cexMelodyCfg)
      = Transposition.mk 0 1 := by
    unfold getBestTranspose
    rw [if_neg (by decide), hseq, transposeFold_cons_one hfit]
  constructor
  · unfold bestTranspose
    rw [hbo]
    rw [if_pos (by norm_num)]
  · decide

/-- C3 (amended): for every non-empty melody, `best_transpose` first scores
the octave-aligned shifts `range(int(transpose_lower / 12) * 12,
transpose_upper, 12)` (truncated-towards-zero start, exclusive upper bound),
each as `count_available_sounds(shift) / sounds_count`; the scan keeps the
first maximum (ties go to the earliest-tested shift, an exact score of 1
short-circuits), so the result dominates every scored shift and, when its
score is positive, sits at the earliest position achieving it.  If that best
score is at least 0.90 or full transposition search is disabled it is
returned, otherwise the same search over `range(transpose_lower,
transpose_upper)` is performed and its best result is returned. -/
theorem C3_best_transpose_amended (cfg : MelodyCfg) (sounds : List Sound)
    (hne : sounds ≠ []) :
    (∀ s ∈ octaveSeq cfg, fitOf cfg sounds s ≤
      (getBestTranspose cfg sounds (octaveSeq cfg)).fit) ∧
    (0 < (getBestTranspose cfg sounds (octaveSeq cfg)).fit →
      ∃ pre post, octaveSeq cfg
          = pre ++ (getBestTranspose cfg sounds (octaveSeq cfg)).shift :: post ∧
        fitOf cfg sounds (getBestTranspose cfg sounds (octaveSeq cfg)).shift
          = (getBestTranspose cfg sounds (octaveSeq cfg)).fit ∧
        ∀ t ∈ pre, fitOf cfg sounds t
          < (getBestTranspose cfg sounds (octaveSeq cfg)).fit) ∧
    ((9 : ℚ) / 10 ≤ (getBestTranspose cfg sounds (octaveSeq cfg)).fit ∨
        cfg.transpose = false →
      bestTranspose cfg sounds = getBestTranspose cfg sounds (octaveSeq cfg)) ∧
    ((getBestTranspose cfg sounds (octaveSeq cfg)).fit < (9 : ℚ) / 10 ∧
        cfg.transpose = true →
      bestTranspose cfg sounds = getBestTranspose cfg sounds (fullSeq cfg) ∧
      (∀ s ∈ fullSeq cfg, fitOf cfg sounds s ≤
        (getBestTranspose cfg sounds (fullSeq cfg)).fit) ∧
      (0 < (getBestTranspose cfg sounds (fullSeq cfg)).fit →
        ∃ pre post, fullSeq cfg
            = pre ++ (getBestTranspose cfg sounds (fullSeq cfg)).shift :: post ∧
          fitOf cfg sounds (getBestTranspose cfg sounds (fullSeq cfg)).shift
            = (getBestTranspose cfg sounds (fullSeq cfg)).fit ∧
          ∀ t ∈ pre, fitOf cfg sounds t
            < (getBestTranspose cfg sounds (fullSeq cfg)).fit)) := by
  have hlen : sounds.length ≠ 0 := fun h => hne (List.length_eq_zero.mp h)
  have hget : ∀ seq, getBestTranspose cfg sounds seq
      = transposeFold cfg sounds seq (Transposition.mk 0 0) := by
    intro seq
    unfold getBestTranspose
    rw [if_neg hlen]
  have hdom : ∀ seq, ∀ s ∈ seq, fitOf cfg sounds s
      ≤ (getBestTranspose cfg sounds seq).fit := by
    intro seq s hs
    rw [hget]
    exact transposeFold_dominates cfg hne seq (Transposition.mk 0 0) (by norm_num) s hs
  have hfm : ∀ seq, 0 < (getBestTranspose cfg sounds seq).fit →
      ∃ pre post, seq = pre ++ (getBestTranspose cfg sounds seq).shift :: post ∧
        fitOf cfg sounds (getBestTranspose cfg sounds seq).shift
          = (getBestTranspose cfg sounds seq).fit ∧
        ∀ t ∈ pre, fitOf cfg sounds t < (getBestTranspose cfg sounds seq).fit := by
    intro seq hpos
    rw [hget] at hpos ⊢
    exact transposeFold_first_max cfg hne seq (Transposition.mk 0 0) (by norm_num)
      (by simpa using hpos)
  refine ⟨hdom (octaveSeq cfg), hfm (octaveSeq cfg), ?_, ?_⟩
  · intro hcase
    unfold bestTranspose
    rcases hcase with hge | hoff
    · rw [if_pos hge]
    · by_cases hge : (9 : ℚ) / 10 ≤ (getBestTranspose cfg sounds (octaveSeq cfg)).fit
      · rw [if_pos hge]
      · rw [if_neg hge, if_pos hoff]
  · intro hcase
    refine ⟨?_, hdom (fullSeq cfg), hfm (fullSeq cfg)⟩
    unfold bestTranspose
    rw [if_neg (by push_neg; exact hcase.1), if_neg (by rw [hcase.2]; simp)]

/-- Witness for C3 (amended) at a one-shift range and a one-sound melody
that shift 0 fits perfectly: the octave-aligned result is returned. -/
theorem C3_best_transpose_amended_witness :
    bestTranspose witMelodyCfg [Sound.mk 72 200 0]
      = getBestTranspose witMelodyCfg [Sound.mk 72 200 0] (octaveSeq witMelodyCfg) := by
  have hfit : fitOf witMelodyCfg [Sound.mk 72 200 0] 0 = 1 := by
    rw [@fitOf_eval witMelodyCfg [Sound.mk 72 200 0] 0 1 1 (by decide) (by decide)]
    norm_num
  have hbo : getBestTranspose witMelodyCfg [Sound.mk 72 200 0] (octaveSeq witMelodyCfg)
      = Transposition.mk 0 1 := by
    unfold getBestTranspose
    rw [if_neg (by decide), show octaveSeq witMelodyCfg = [0] from by decide,
      transposeFold_cons_one hfit]
  exact (C3_best_transpose_amended witMelodyCfg [Sound.mk 72 200 0] (by decide)).2.2.1
    (Or.inl (by rw [hbo]; norm_num))


/-! ### Melody extraction lemmas -/

theorem processTrack_append (cfg : MelodyCfg) (i : Nat) :
    ∀ (msgs : List Msg) (time prev : Int) (acc : List Sound),
      ∃ new, processTrack cfg i msgs time prev acc = acc ++ new := by
  intro msgs
  induction msgs with
  | nil => intro time prev acc; exact ⟨[], by simp [processTrack]⟩
  | cons m rest ih =>
    intro time prev acc
    unfold processTrack
    by_cases hmeta : m.isMeta = true
    · rw [if_pos hmeta]; exact ih _ _ acc
    · rw [if_neg hmeta]
      by_cases hno : (!m.isNoteOn) = true
      · rw [if_pos hno]; exact ih _ _ acc
      · rw [if_neg hno]
        by_cases hv : m.velocity = 0
        · rw [if_pos hv]; exact ih _ _ acc
        · rw [if_neg hv]
          by_cases hcut : acc ≠ [] ∧ cfg.cutPause < time + (m.delta : Int) - prev
          · rw [if_pos hcut]; exact ⟨[], by simp⟩
          · rw [if_neg hcut]
            obtain ⟨new, hnew⟩ := ih
              (prev + min cfg.maxPause (time + (m.delta : Int) - prev))
              (prev + min cfg.maxPause (time + (m.delta : Int) - prev))
              (acc ++ [Sound.mk m.note
                (prev + min cfg.maxPause (time + (m.delta : Int) - prev)) i])
            exact ⟨Sound.mk m.note
              (prev + min cfg.maxPause (time + (m.delta : Int) - prev)) i :: new,
              by rw [hnew, List.append_assoc]; rfl⟩

theorem processTrack_shape (cfg : MelodyCfg) (i : Nat) (hmp : 0 ≤ cfg.maxPause) :
    ∀ (msgs : List Msg) (time prev : Int) (acc : List Sound), prev ≤ time →
      ∃ new, processTrack cfg i msgs time prev acc = acc ++ new ∧
        (∀ s ∈ new, s.track = i) ∧
        List.Chain' (fun a b : Int => 0 ≤ b - a ∧ b - a ≤ cfg.maxPause)
          (prev :: new.map Sound.time) := by
  intro msgs
  induction msgs with
  | nil =>
    intro time prev acc hpt
    exact ⟨[], by simp [processTrack], by simp, by simp⟩
  | cons m rest ih =>
    intro time prev acc hpt
    unfold processTrack
    by_cases hmeta : m.isMeta = true
    · rw [if_pos hmeta]; exact ih _ _ acc (by omega)
    · rw [if_neg hmeta]
      by_cases hno : (!m.isNoteOn) = true
      · rw [if_pos hno]; exact ih _ _ acc (by omega)
      · rw [if_neg hno]
        by_cases hv : m.velocity = 0
        · rw [if_pos hv]; exact ih _ _ acc (by omega)
        · rw [if_neg hv]
          by_cases hcut : acc ≠ [] ∧ cfg.cutPause < time + (m.delta : Int) - prev
          · rw [if_pos hcut]
            exact ⟨[], by simp, by simp, by simp⟩
          · rw [if_neg hcut]
            obtain ⟨new, hnew, htrack, hchain⟩ := ih
              (prev + min cfg.maxPause (time + (m.delta : Int) - prev))
              (prev + min cfg.maxPause (time + (m.delta : Int) - prev))
              (acc ++ [Sound.mk m.note
                (prev + min cfg.maxPause (time + (m.delta : Int) - prev)) i])
              (le_refl _)
            refine ⟨Sound.mk m.note
              (prev + min cfg.maxPause (time + (m.delta : Int) - prev)) i :: new,
              by rw [hnew, List.append_assoc]; rfl, ?_, ?_⟩
            · intro s hs
              rcases List.mem_cons.mp hs with hh | hh
              · rw [hh]
              · exact htrack s hh
            · rw [List.map_cons, List.chain'_cons]
              dsimp only
              constructor
              · have hd : (0 : Int) ≤ time + (m.delta : Int) - prev := by
                  have : (0 : Int) ≤ (m.delta : Int) := Int.ofNat_nonneg m.delta
                  omega
                constructor
                · have := le_min hmp hd
                  omega
                · have := min_le_left cfg.maxPause (time + (m.delta : Int) - prev)
                  omega
              · exact hchain

theorem processTrack_cut (cfg : MelodyCfg) (i : Nat) :
    ∀ (msgs : List Msg) (time prev : Int) (acc : List Sound) (m : Msg) (t : Int),
      acc ≠ [] → firstNoteOn msgs time = some (m, t) →
      cfg.cutPause < t - prev →
      processTrack cfg i msgs time prev acc = acc := by
  intro msgs
  induction msgs with
  | nil => intro time prev acc m t _ hfn _; exact absurd hfn (by simp [firstNoteOn])
  | cons m0 rest ih =>
    intro time prev acc m t hacc hfn hgap
    unfold firstNoteOn at hfn
    unfold processTrack
    by_cases hmeta : m0.isMeta = true
    · rw [if_pos hmeta] at hfn ⊢; exact ih _ _ acc m t hacc hfn hgap
    · rw [if_neg hmeta] at hfn ⊢
      by_cases hno : (!m0.isNoteOn) = true
      · rw [if_pos hno] at hfn ⊢; exact ih _ _ acc m t hacc hfn hgap
      · rw [if_neg hno] at hfn ⊢
        by_cases hv : m0.velocity = 0
        · rw [if_pos hv] at hfn ⊢; exact ih _ _ acc m t hacc hfn hgap
        · rw [if_neg hv] at hfn ⊢
          rw [Option.some_inj, Prod.mk.injEq] at hfn
          rw [if_pos ⟨hacc, by rw [hfn.2]; exact hgap⟩]

theorem processTrack_head (cfg : MelodyCfg) (i : Nat) :
    ∀ (msgs : List Msg) (time prev : Int) (m : Msg) (t : Int),
      firstNoteOn msgs time = some (m, t) →
      (processTrack cfg i msgs time prev []).head?
        = some (Sound.mk m.note (prev + min cfg.maxPause (t - prev)) i) := by
  intro msgs
  induction msgs with
  | nil => intro time prev m t hfn; exact absurd hfn (by simp [firstNoteOn])
  | cons m0 rest ih =>
    intro time prev m t hfn
    unfold firstNoteOn at hfn
    unfold processTrack
    by_cases hmeta : m0.isMeta = true
    · rw [if_pos hmeta] at hfn ⊢; exact ih _ _ m t hfn
    · rw [if_neg hmeta] at hfn ⊢
      by_cases hno : (!m0.isNoteOn) = true
      · rw [if_pos hno] at hfn ⊢; exact ih _ _ m t hfn
      · rw [if_neg hno] at hfn ⊢
        by_cases hv : m0.velocity = 0
        · rw [if_pos hv] at hfn ⊢; exact ih _ _ m t hfn
        · rw [if_neg hv] at hfn ⊢
          rw [Option.some_inj, Prod.mk.injEq] at hfn
          obtain ⟨hm, ht⟩ := hfn
          subst hm
          subst ht
          rw [if_neg (by simp)]
          obtain ⟨new, hnew⟩ := processTrack_append cfg i rest
            (prev + min cfg.maxPause (time + (m0.delta : Int) - prev))
            (prev + min cfg.maxPause (time + (m0.delta : Int) - prev))
            (([] : List Sound) ++ [Sound.mk m0.note
              (prev + min cfg.maxPause (time + (m0.delta : Int) - prev)) i])
          rw [hnew]
          simp

theorem collectSounds_track_chain (cfg : MelodyCfg) (hmp : 0 ≤ cfg.maxPause) :
    ∀ (trs : List (List Msg)) (j : Nat) (acc : List Sound),
      (∀ s ∈ acc, s.track < j) →
      (∀ i, List.Chain' (fun a b : Int => 0 ≤ b - a ∧ b - a ≤ cfg.maxPause)
        ((acc.filter (fun s => s.track = i)).map Sound.time)) →
      (∀ s ∈ collectSounds cfg trs j acc, ∃ jj, s.track = jj ∧ jj < j + trs.length) ∧
      (∀ i, List.Chain' (fun a b : Int => 0 ≤ b - a ∧ b - a ≤ cfg.maxPause)
        (((collectSounds cfg trs j acc).filter (fun s => s.track = i)).map Sound.time)) := by
  intro trs
  induction trs with
  | nil =>
    intro j acc hacc hchain
    refine ⟨?_, hchain⟩
    intro s hs
    exact ⟨s.track, rfl, by have := hacc s hs; simpa using this⟩
  | cons tr rest ih =>
    intro j acc hacc hchain
    by_cases hsel : cfg.selected j = true
    · obtain ⟨new, hnew, htrack, hchainNew⟩ :=
        processTrack_shape cfg j hmp tr 0 0 acc (le_refl 0)
      have hstep : collectSounds cfg (tr :: rest) j acc
          = collectSounds cfg rest (j + 1) (acc ++ new) := by
        rw [show collectSounds cfg (tr :: rest) j acc
          = collectSounds cfg rest (j + 1)
            (if cfg.selected j = true then processTrack cfg j tr 0 0 acc else acc)
          from rfl]
        rw [if_pos hsel, hnew]
      have hacc' : ∀ s ∈ acc ++ new, s.track < j + 1 := by
        intro s hs
        rcases List.mem_append.mp hs with hh | hh
        · have := hacc s hh; omega
        · rw [htrack s hh]; omega
      have hchain' : ∀ i, List.Chain' (fun a b : Int => 0 ≤ b - a ∧ b - a ≤ cfg.maxPause)
          (((acc ++ new).filter (fun s => s.track = i)).map Sound.time) := by
        intro i
        rw [List.filter_append]
        by_cases hij : i = j
        · subst hij
          have h1 : acc.filter (fun s => decide (s.track = i)) = [] := by
            apply List.filter_eq_nil_iff.mpr
            intro s hs
            have := hacc s hs
            simp only [decide_eq_true_eq]
            omega
          have h2 : new.filter (fun s => decide (s.track = i)) = new := by
            apply List.filter_eq_self.mpr
            intro s hs
            simp only [decide_eq_true_eq]
            exact htrack s hs
          rw [h1, h2, List.nil_append]
          exact hchainNew.tail
        · have h2 : new.filter (fun s => decide (s.track = i)) = [] := by
            apply List.filter_eq_nil_iff.mpr
            intro s hs
            simp only [decide_eq_true_eq]
            rw [htrack s hs]
            exact fun hh => hij hh.symm
          rw [h2, List.append_nil]
          exact hchain i
      obtain ⟨hbound, hch⟩ := ih (j + 1) (acc ++ new) hacc' hchain'
      rw [hstep]
      refine ⟨?_, hch⟩
      intro s hs
      obtain ⟨jj, hjj, hlt⟩ := hbound s hs
      exact ⟨jj, hjj, by simp only [List.length_cons]; omega⟩
    · have hstep : collectSounds cfg (tr :: rest) j acc
          = collectSounds cfg rest (j + 1) acc := by
        rw [show collectSounds cfg (tr :: rest) j acc
          = collectSounds cfg rest (j + 1)
            (if cfg.selected j = true then processTrack cfg j tr 0 0 acc else acc)
          from rfl]
        rw [if_neg hsel]
      have hacc' : ∀ s ∈ acc, s.track < j + 1 := fun s hs => by
        have := hacc s hs; omega
      obtain ⟨hbound, hch⟩ := ih (j + 1) acc hacc' hchain
      rw [hstep]
      refine ⟨?_, hch⟩
      intro s hs
      obtain ⟨jj, hjj, hlt⟩ := hbound s hs
      exact ⟨jj, hjj, by simp only [List.length_cons]; omega⟩

theorem rawSounds_track_chain (cfg : MelodyCfg) (hmp : 0 ≤ cfg.maxPause)
    (tracks : List (List Msg)) (i : Nat) :
    List.Chain' (fun a b : Int => 0 ≤ b - a ∧ b - a ≤ cfg.maxPause)
      (((rawSounds cfg tracks).filter (fun s => s.track = i)).map Sound.time) :=
  (collectSounds_track_chain cfg hmp tracks 0 []
    (by intro s hs; exact absurd hs (List.not_mem_nil s))
    (by intro i; simp)).2 i

theorem shiftedSounds_track_chain (cfg : MelodyCfg) (hmp : 0 ≤ cfg.maxPause)
    (tracks : List (List Msg)) (i : Nat) :
    List.Chain' (fun a b : Int => 0 ≤ b - a ∧ b - a ≤ cfg.maxPause)
      (((shiftedSounds cfg tracks).filter (fun s => s.track = i)).map Sound.time) := by
  have hraw := rawSounds_track_chain cfg hmp tracks i
  unfold shiftedSounds
  cases hr : rawSounds cfg tracks with
  | nil => simp
  | cons s0 rest =>
    rw [hr] at hraw
    rw [List.filter_map]
    rw [List.map_map]
    have hcomp : ((fun s : Sound => decide (s.track = i)) ∘ (fun s : Sound =>
        Sound.mk s.note
          (s.time + (cfg.startPause - ((s0 :: rest).map Sound.time).foldl min s0.time))
          s.track)) = fun s : Sound => decide (s.track = i) := rfl
    rw [hcomp]
    have hmapt : (Sound.time ∘ (fun s : Sound =>
        Sound.mk s.note
          (s.time + (cfg.startPause - ((s0 :: rest).map Sound.time).foldl min s0.time))
          s.track)) = fun s : Sound =>
          s.time + (cfg.startPause - ((s0 :: rest).map Sound.time).foldl min s0.time) := rfl
    rw [hmapt]
    rw [List.chain'_map]
    have hraw2 := @List.chain'_map Int Sound
      (fun a b : Int => 0 ≤ b - a ∧ b - a ≤ cfg.maxPause) Sound.time
      ((s0 :: rest).filter (fun s => decide (s.track = i)))
    rw [hraw2] at hraw
    exact List.Chain'.imp (by intro a b hab; constructor <;> [omega; omega]) hraw

theorem melodySounds_track_times (cfg : MelodyCfg) (hmp : 0 ≤ cfg.maxPause)
    (tracks : List (List Msg)) (i : Nat) :
    ((melodySounds cfg tracks).filter (fun s => s.track = i)).map Sound.time
      = ((shiftedSounds cfg tracks).filter (fun s => s.track = i)).map Sound.time := by
  have hperm : (((melodySounds cfg tracks).filter
        (fun s => decide (s.track = i))).map Sound.time).Perm
      (((shiftedSounds cfg tracks).filter (fun s => decide (s.track = i))).map Sound.time) :=
    List.Perm.map Sound.time (List.Perm.filter _
      (List.mergeSort_perm (shiftedSounds cfg tracks) _))
  have hs1 : List.Pairwise (fun a b : Int => a ≤ b)
      (((melodySounds cfg tracks).filter (fun s => decide (s.track = i))).map Sound.time) := by
    have h0 := @List.sorted_mergeSort Sound (fun a b : Sound => decide (a.time ≤ b.time))
      (by intro a b c hab hbc; simp only [decide_eq_true_eq] at *; omega)
      (by intro a b; simp only [Bool.or_eq_true, decide_eq_true_eq]; omega)
      (shiftedSounds cfg tracks)
    have h1 : List.Pairwise (fun a b : Sound => a.time ≤ b.time) (melodySounds cfg tracks) :=
      h0.imp (by intro a b hab; simpa using hab)
    exact List.pairwise_map.mpr (List.Pairwise.filter _ h1)
  have hs2 : List.Pairwise (fun a b : Int => a ≤ b)
      (((shiftedSounds cfg tracks).filter (fun s => decide (s.track = i))).map Sound.time) := by
    have hch := shiftedSounds_track_chain cfg hmp tracks i
    have hch2 : List.Chain' (fun a b : Int => a ≤ b)
        (((shiftedSounds cfg tracks).filter
          (fun s => decide (s.track = i))).map Sound.time) :=
      List.Chain'.imp (by intro a b hab; omega) hch
    exact List.chain'_iff_pairwise.mp hch2
  exact List.eq_of_perm_of_sorted hperm hs1 hs2

theorem foldl_min_le_start : ∀ (l : List Int) (a : Int), l.foldl min a ≤ a := by
  intro l
  induction l with
  | nil => intro a; exact le_refl a
  | cons b rest ih =>
    intro a
    calc (b :: rest).foldl min a = rest.foldl min (min a b) := rfl
    _ ≤ min a b := ih (min a b)
    _ ≤ a := min_le_left a b

theorem foldl_min_le_mem : ∀ (l : List Int) (a : Int), ∀ x ∈ l, l.foldl min a ≤ x := by
  intro l
  induction l with
  | nil => intro a x hx; exact absurd hx (List.not_mem_nil x)
  | cons b rest ih =>
    intro a x hx
    rcases List.mem_cons.mp hx with hh | hh
    · subst hh
      calc (x :: rest).foldl min a = rest.foldl min (min a x) := rfl
      _ ≤ min a x := foldl_min_le_start rest (min a x)
      _ ≤ x := min_le_right a x
    · exact ih (min a b) x hh

theorem foldl_min_cases : ∀ (l : List Int) (a : Int), l.foldl min a = a ∨ l.foldl min a ∈ l := by
  intro l
  induction l with
  | nil => intro a; exact Or.inl rfl
  | cons b rest ih =>
    intro a
    rcases ih (min a b) with hh | hh
    · rcases min_cases a b with ⟨hm, _⟩ | ⟨hm, _⟩
      · exact Or.inl (by rw [show (b :: rest).foldl min a = rest.foldl min (min a b) from rfl, hh, hm])
      · exact Or.inr (by rw [show (b :: rest).foldl min a = rest.foldl min (min a b) from rfl, hh, hm]; exact List.mem_cons_self b rest)
    · exact Or.inr (List.mem_cons_of_mem b hh)

/-! ### Claim C4 -/

/-- C4: in the extracted melody, every pair of consecutive kept sounds of
one track is at most `max_pause` apart; and whenever sounds have already
been collected and the raw gap from `prev_time` to the next qualifying
note-on exceeds `cut_pause`, the track loop stops and contributes nothing
further (so no sounds after such a gap from that track appear in the
melody). -/
theorem C4_pause_clamp_and_cut (cfg : MelodyCfg) (tracks : List (List Msg))
    (hmp : 0 ≤ cfg.maxPause) :
    (∀ i, List.Chain' (fun a b : Int => b - a ≤ cfg.maxPause)
      (((melodySounds cfg tracks).filter (fun s => s.track = i)).map Sound.time)) ∧
    (∀ (i : Nat) (msgs : List Msg) (time prev : Int) (acc : List Sound) (m : Msg) (t : Int),
      acc ≠ [] → firstNoteOn msgs time = some (m, t) → cfg.cutPause < t - prev →
      processTrack cfg i msgs time prev acc = acc) := by
  constructor
  · intro i
    rw [melodySounds_track_times cfg hmp tracks i]
    exact List.Chain'.imp (by intro a b hab; exact hab.2)
      (shiftedSounds_track_chain cfg hmp tracks i)
  · intro i
    exact processTrack_cut cfg i

theorem melodySounds_wTracks :
    melodySounds dMelodyCfg wTracks = [Sound.mk 60 200 0, Sound.mk 62 2200 0] := by
  unfold melodySounds
  rw [List.mergeSort_of_sorted (by decide)]
  decide

/-- Witness for C4 at a concrete track: the kept times are 200 and 2200,
whose gap is exactly the clamped `max_pause`. -/
theorem C4_pause_clamp_and_cut_witness :
    (0 : Int) ≤ dMelodyCfg.maxPause ∧
    List.Chain' (fun a b : Int => b - a ≤ dMelodyCfg.maxPause)
      (((melodySounds dMelodyCfg wTracks).filter (fun s => s.track = 0)).map Sound.time) ∧
    ((melodySounds dMelodyCfg wTracks).filter (fun s => s.track = 0)).map Sound.time
      = [200, 2200] :=
  ⟨by decide, (C4_pause_clamp_and_cut dMelodyCfg wTracks (by decide)).1 0,
    by rw [melodySounds_wTracks]; decide⟩

/-! ### Claim C5 -/

/-- C5: whenever the extracted melody is non-empty, some sound sits exactly
at `start_pause` and every sound sits at or after it (hence all times are
non-negative when `start_pause` is): the uniform shift applied after
extraction makes the earliest sound land exactly at `start_pause`. -/
theorem C5_leading_silence (cfg : MelodyCfg) (tracks : List (List Msg))
    (h : melodySounds cfg tracks ≠ []) (hsp : 0 ≤ cfg.startPause) :
    (∃ s ∈ melodySounds cfg tracks, s.time = cfg.startPause) ∧
    (∀ s ∈ melodySounds cfg tracks, cfg.startPause ≤ s.time ∧ 0 ≤ s.time) := by
  have hperm : (melodySounds cfg tracks).Perm (shiftedSounds cfg tracks) :=
    List.mergeSort_perm (shiftedSounds cfg tracks) _
  cases hr : rawSounds cfg tracks with
  | nil =>
    exfalso
    apply h
    unfold melodySounds shiftedSounds
    rw [hr]
    simp
  | cons s0 rest =>
    have hshift : shiftedSounds cfg tracks
        = (s0 :: rest).map (fun s => Sound.mk s.note
            (s.time + (cfg.startPause - ((s0 :: rest).map Sound.time).foldl min s0.time))
            s.track) := by
      unfold shiftedSounds
      rw [hr]
    constructor
    · rcases foldl_min_cases ((s0 :: rest).map Sound.time) s0.time with hm | hm
      · refine ⟨Sound.mk s0.note
          (s0.time + (cfg.startPause - ((s0 :: rest).map Sound.time).foldl min s0.time))
          s0.track, ?_, by dsimp only; rw [hm]; omega⟩
        rw [hperm.mem_iff, hshift]
        exact List.mem_map_of_mem _ (List.mem_cons_self s0 rest)
      · obtain ⟨s, hs, hst⟩ := List.mem_map.mp hm
        refine ⟨Sound.mk s.note
          (s.time + (cfg.startPause - ((s0 :: rest).map Sound.time).foldl min s0.time))
          s.track, ?_, by dsimp only; rw [hst]; omega⟩
        rw [hperm.mem_iff, hshift]
        exact List.mem_map_of_mem _ hs
    · intro s hs
      rw [hperm.mem_iff, hshift] at hs
      obtain ⟨s1, hs1, hst⟩ := List.mem_map.mp hs
      have hmin : ((s0 :: rest).map Sound.time).foldl min s0.time ≤ s1.time :=
        foldl_min_le_mem _ s0.time s1.time (List.mem_map_of_mem Sound.time hs1)
      rw [← hst]
      constructor
      · simp only
        omega
      · simp only
        omega

/-- Witness for C5 at a concrete track: the melody is non-empty and its
earliest time is the default `start_pause` 200. -/
theorem C5_leading_silence_witness :
    (∃ s ∈ melodySounds dMelodyCfg wTracks, s.time = dMelodyCfg.startPause) ∧
    (∀ s ∈ melodySounds dMelodyCfg wTracks, dMelodyCfg.startPause ≤ s.time ∧ 0 ≤ s.time) :=
  C5_leading_silence dMelodyCfg wTracks
    (by rw [melodySounds_wTracks]; decide) (by decide)

/-! ### Claim C9 -/

/-- C9: the cut-pause check tests whether any sound at all has been
collected so far.  With an empty accumulator (the first kept sound of the
whole run) no leading delay is ever cut — the first sound's time is clamped
to `min(max_pause, t)`; with a non-empty accumulator (an earlier selected
track contributed a sound), a track whose first note-on lies more than
`cut_pause` ticks from its start contributes no sounds whatsoever. -/
theorem C9_cross_track_cut (cfg : MelodyCfg) (i : Nat) :
    (∀ (msgs : List Msg) (m : Msg) (t : Int), firstNoteOn msgs 0 = some (m, t) →
      (processTrack cfg i msgs 0 0 []).head?
        = some (Sound.mk m.note (min cfg.maxPause t) i)) ∧
    (∀ (msgs : List Msg) (acc : List Sound) (m : Msg) (t : Int),
      acc ≠ [] → firstNoteOn msgs 0 = some (m, t) → cfg.cutPause < t →
      processTrack cfg i msgs 0 0 acc = acc) := by
  constructor
  · intro msgs m t hfn
    have h := processTrack_head cfg i msgs 0 0 m t hfn
    simpa using h
  · intro msgs acc m t hacc hfn hcut
    exact processTrack_cut cfg i msgs 0 0 acc m t hacc hfn (by omega)

/-- Witness for C9: a track whose only note-on sits 60000 ticks in (beyond
`cut_pause` 50000) still yields a sound, clamped to 2000, when it is first;
but contributes nothing when another track already produced a sound. -/
theorem C9_cross_track_cut_witness :
    (processTrack dMelodyCfg 1 [Msg.mk 60000 false true 100 64] 0 0 []).head?
      = some (Sound.mk 64 (min dMelodyCfg.maxPause 60000) 1) ∧
    processTrack dMelodyCfg 1 [Msg.mk 60000 false true 100 64] 0 0 [Sound.mk 60 200 0]
      = [Sound.mk 60 200 0] :=
  ⟨(C9_cross_track_cut dMelodyCfg 1).1 [Msg.mk 60000 false true 100 64]
      (Msg.mk 60000 false true 100 64) 60000 (by decide),
    (C9_cross_track_cut dMelodyCfg 1).2 [Msg.mk 60000 false true 100 64]
      [Sound.mk 60 200 0] (Msg.mk 60000 false true 100 64) 60000
      (by decide) (by decide) (by decide)⟩

/-! ### Stave layout lemmas -/

theorem takeWhile_append_of_all {α : Type} {p : α → Bool} :
    ∀ {l1 l2 : List α}, (∀ x ∈ l1, p x = true) →
      (l1 ++ l2).takeWhile p = l1 ++ l2.takeWhile p := by
  intro l1
  induction l1 with
  | nil => intro l2 _; rfl
  | cons a rest ih =>
    intro l2 h
    rw [List.cons_append, List.takeWhile_cons, if_pos (h a (List.mem_cons_self a rest)),
      List.cons_append, ih (fun x hx => h x (List.mem_cons_of_mem a hx))]

theorem drop_length_takeWhile {α : Type} {p : α → Bool} :
    ∀ (l : List α), l.drop (l.takeWhile p).length = l.dropWhile p := by
  intro l
  induction l with
  | nil => rfl
  | cons a rest ih =>
    rw [List.takeWhile_cons, List.dropWhile_cons]
    by_cases hp : p a = true
    · rw [if_pos hp, if_pos hp, List.length_cons, List.drop_succ_cons, ih]
    · rw [if_neg hp, if_neg hp, List.length_nil, List.drop_zero]

theorem countP_eq_length_takeWhile {p : Sound → Bool} :
    ∀ {l : List Sound}, List.Pairwise (fun a b : Sound => a.time ≤ b.time) l →
      (∀ a b : Sound, a.time ≤ b.time → p b = true → p a = true) →
      l.countP p = (l.takeWhile p).length := by
  intro l
  induction l with
  | nil => intro _ _; rfl
  | cons s rest ih =>
    intro hsort hdc
    have hpair := List.pairwise_cons.mp hsort
    by_cases hp : p s = true
    · rw [List.countP_cons_of_pos _ _ hp, List.takeWhile_cons, if_pos hp,
        List.length_cons, ih hpair.2 hdc]
    · rw [List.countP_cons_of_neg _ _ hp, List.takeWhile_cons, if_neg hp]
      rw [List.length_nil]
      rw [List.countP_eq_zero]
      intro x hx
      intro hpx
      exact hp (hdc s x (hpair.1 x hx) hpx)
theorem dropWhile_all_false {p : Sound → Bool} :
    ∀ {l : List Sound}, List.Pairwise (fun a b : Sound => a.time ≤ b.time) l →
      (∀ a b : Sound, a.time ≤ b.time → p b = true → p a = true) →
      ∀ x ∈ l.dropWhile p, p x = false := by
  intro l
  induction l with
  | nil => intro _ _ x hx; exact absurd hx (by simp)
  | cons s rest ih =>
    intro hsort hdc x hx
    have hpair := List.pairwise_cons.mp hsort
    rw [List.dropWhile_cons] at hx
    by_cases hp : p s = true
    · rw [if_pos hp] at hx
      exact ih hpair.2 hdc x hx
    · rw [if_neg hp] at hx
      rcases List.mem_cons.mp hx with hh | hh
      · subst hh
        simpa using hp
      · cases hpx : p x with
        | false => rfl
        | true => exact absurd (hdc s x (hpair.1 x hh) hpx) hp

theorem trackerUpdate_none {c : StavesCfg} {pos : Nat} {so : ℚ}
    {latest : Nat → Option ℚ} (h : latest pos = none) :
    trackerUpdate c pos so latest
      = fun p => if p = pos then some so else latest p := by
  unfold trackerUpdate
  rw [h]

theorem trackerUpdate_some {c : StavesCfg} {pos : Nat} {so : ℚ}
    {latest : Nat → Option ℚ} {prev : ℚ} (h : latest pos = some prev) :
    trackerUpdate c pos so latest
      = if so - prev < c.box.minDistance then latest
        else fun p => if p = pos then some so else latest p := by
  unfold trackerUpdate
  rw [h]

theorem trackerUpdate_other {c : StavesCfg} {pos2 pos : Nat} {so : ℚ}
    {latest : Nat → Option ℚ} (h : pos ≠ pos2) :
    trackerUpdate c pos2 so latest pos = latest pos := by
  unfold trackerUpdate
  cases hl : latest pos2 with
  | none =>
    show (fun p => if p = pos2 then some so else latest p) pos = latest pos
    simp [h]
  | some prev =>
    show (if so - prev < c.box.minDistance then latest
      else fun p => if p = pos2 then some so else latest p) pos = latest pos
    by_cases hd : so - prev < c.box.minDistance
    · rw [if_pos hd]
    · rw [if_neg hd]
      simp [h]

theorem tooCloseFlag_none {c : StavesCfg} {pos : Nat} {so : ℚ}
    {latest : Nat → Option ℚ} (h : latest pos = none) :
    tooCloseFlag c pos so latest = false := by
  unfold tooCloseFlag
  rw [h]

theorem tooCloseFlag_some {c : StavesCfg} {pos : Nat} {so : ℚ}
    {latest : Nat → Option ℚ} {prev : ℚ} (h : latest pos = some prev) :
    tooCloseFlag c pos so latest = decide (so - prev < c.box.minDistance) := by
  unfold tooCloseFlag
  rw [h]

theorem writeStaveLoop_cons_ok (c : StavesCfg) (trans : Int) (ot : ℚ)
    (s : Sound) (rest : List Sound) (latest : Nat → Option ℚ) (ps : List Punch)
    (h0 : 0 ≤ (s.time : ℚ) / c.speed - ot)
    (hso : ¬ ((s.time : ℚ) / c.speed - ot > staveLength c))
    (hb1 : 0 < s.note + trans) (hb2 : s.note + trans < 1000)
    (hrest : writeStaveLoop c trans ot rest
      (trackerUpdate c (resolveNote c.box (s.note + trans)).1
        ((s.time : ℚ) / c.speed - ot) latest) = some ps) :
    writeStaveLoop c trans ot (s :: rest) latest
      = some (Punch.mk ((s.time : ℚ) / c.speed - ot)
          (resolveNote c.box (s.note + trans)).1
          (resolveNote c.box (s.note + trans)).2
          (tooCloseFlag c (resolveNote c.box (s.note + trans)).1
            ((s.time : ℚ) / c.speed - ot) latest) :: ps) := by
  simp only [writeStaveLoop]
  rw [if_neg (not_not_intro h0), if_neg hso, if_neg (not_not_intro hb1),
    if_neg (not_not_intro hb2), hrest]

theorem writeStaveLoop_cons_none (c : StavesCfg) (trans : Int) (ot : ℚ)
    (s : Sound) (rest : List Sound) (latest : Nat → Option ℚ)
    (h0 : 0 ≤ (s.time : ℚ) / c.speed - ot)
    (hso : ¬ ((s.time : ℚ) / c.speed - ot > staveLength c))
    (hb1 : 0 < s.note + trans) (hb2 : s.note + trans < 1000)
    (hrest : writeStaveLoop c trans ot rest
      (trackerUpdate c (resolveNote c.box (s.note + trans)).1
        ((s.time : ℚ) / c.speed - ot) latest) = none) :
    writeStaveLoop c trans ot (s :: rest) latest = none := by
  simp only [writeStaveLoop]
  rw [if_neg (not_not_intro h0), if_neg hso, if_neg (not_not_intro hb1),
    if_neg (not_not_intro hb2), hrest]

theorem writeStaveLoop_some (c : StavesCfg) (trans : Int) (ot : ℚ) :
    ∀ (l : List Sound) (latest : Nat → Option ℚ),
      (∀ s ∈ l, 0 ≤ (s.time : ℚ) / c.speed - ot) →
      (∀ s ∈ l, 0 < s.note + trans ∧ s.note + trans < 1000) →
      ∃ ps, writeStaveLoop c trans ot l latest = some ps ∧
        ps.length = (l.takeWhile fun s =>
          decide ((s.time : ℚ) / c.speed - ot ≤ staveLength c)).length := by
  intro l
  induction l with
  | nil => intro latest _ _; exact ⟨[], rfl, rfl⟩
  | cons s rest ih =>
    intro latest h0 hn
    have hs0 : 0 ≤ (s.time : ℚ) / c.speed - ot := h0 s (List.mem_cons_self s rest)
    have hsn := hn s (List.mem_cons_self s rest)
    by_cases hso : (s.time : ℚ) / c.speed - ot > staveLength c
    · refine ⟨[], ?_, ?_⟩
      · simp only [writeStaveLoop]
        rw [if_neg (not_not_intro hs0), if_pos hso]
      · rw [List.takeWhile_cons,
          if_neg (by simp only [decide_eq_true_eq]; push_neg; exact hso)]
        rfl
    · obtain ⟨ps, hps, hlen⟩ := ih
        (trackerUpdate c (resolveNote c.box (s.note + trans)).1
          ((s.time : ℚ) / c.speed - ot) latest)
        (fun x hx => h0 x (List.mem_cons_of_mem s hx))
        (fun x hx => hn x (List.mem_cons_of_mem s hx))
      refine ⟨_, writeStaveLoop_cons_ok c trans ot s rest latest ps
        hs0 hso hsn.1 hsn.2 hps, ?_⟩
      rw [List.takeWhile_cons,
        if_pos (by simp only [decide_eq_true_eq]; exact not_lt.mp hso)]
      rw [List.length_cons, List.length_cons, hlen]

theorem fitsB_mono {c : StavesCfg} {k1 k2 : Nat} {s : Sound}
    (hL : 0 ≤ staveLength c) (hk : k1 ≤ k2) (h : fitsB c k1 s = true) :
    fitsB c k2 s = true := by
  unfold fitsB at h ⊢
  rw [decide_eq_true_eq] at h ⊢
  have : (k1 : ℚ) * staveLength c ≤ (k2 : ℚ) * staveLength c := by
    apply mul_le_mul_of_nonneg_right _ hL
    exact_mod_cast hk
  linarith

theorem fitsB_downward {c : StavesCfg} {k : Nat} (hspeed : 0 < c.speed) :
    ∀ a b : Sound, a.time ≤ b.time → fitsB c k b = true → fitsB c k a = true := by
  intro a b hab h
  unfold fitsB at h ⊢
  rw [decide_eq_true_eq] at h ⊢
  have : (a.time : ℚ) / c.speed ≤ (b.time : ℚ) / c.speed := by
    gcongr
  linarith

theorem placedCount_le (c : StavesCfg) (sounds : List Sound) (k : Nat) :
    placedCount c sounds k ≤ sounds.length :=
  List.countP_le_length (fitsB c k)

theorem placedCount_mono (c : StavesCfg) (sounds : List Sound) {k1 k2 : Nat}
    (hL : 0 ≤ staveLength c) (hk : k1 ≤ k2) :
    placedCount c sounds k1 ≤ placedCount c sounds k2 := by
  unfold placedCount
  apply List.countP_mono_left
  intro s _ h
  exact fitsB_mono hL hk h

theorem stavePunches_some (c : StavesCfg) (trans : Int) (sounds : List Sound) (k : Nat)
    (hsort : List.Pairwise (fun a b : Sound => a.time ≤ b.time) sounds)
    (hspeed : 0 < c.speed) (hL : 0 ≤ staveLength c)
    (hnotes : ∀ s ∈ sounds, 0 < s.note + trans ∧ s.note + trans < 1000) :
    ∃ ps, stavePunches c trans sounds k (placedCount c sounds k) = some ps ∧
      placedCount c sounds k + ps.length = placedCount c sounds (k + 1) := by
  have htake : placedCount c sounds k = (sounds.takeWhile (fitsB c k)).length :=
    countP_eq_length_takeWhile hsort (fitsB_downward hspeed)
  have hdrop : sounds.drop (placedCount c sounds k) = sounds.dropWhile (fitsB c k) := by
    rw [htake]
    exact drop_length_takeWhile sounds
  have hfail : ∀ x ∈ sounds.dropWhile (fitsB c k), fitsB c k x = false :=
    dropWhile_all_false hsort (fitsB_downward hspeed)
  have h0 : ∀ x ∈ sounds.drop (placedCount c sounds k),
      0 ≤ (x.time : ℚ) / c.speed - ((k : ℚ) * staveLength c - c.startWidth) := by
    intro x hx
    rw [hdrop] at hx
    have hf := hfail x hx
    unfold fitsB at hf
    rw [decide_eq_false_iff_not] at hf
    push_neg at hf
    linarith
  have hnotes2 : ∀ x ∈ sounds.drop (placedCount c sounds k),
      0 < x.note + trans ∧ x.note + trans < 1000 :=
    fun x hx => hnotes x (List.mem_of_mem_drop hx)
  obtain ⟨ps, hps, hlen⟩ := writeStaveLoop_some c trans
    ((k : ℚ) * staveLength c - c.startWidth)
    (sounds.drop (placedCount c sounds k)) (fun _ => none) h0 hnotes2
  refine ⟨ps, hps, ?_⟩
  have hcondeq : (fun s : Sound =>
      decide ((s.time : ℚ) / c.speed - ((k : ℚ) * staveLength c - c.startWidth)
        ≤ staveLength c)) = fitsB c (k + 1) := by
    funext s
    unfold fitsB
    rw [decide_eq_decide]
    push_cast
    constructor <;> intro <;> linarith
  have hsplit : sounds = sounds.takeWhile (fitsB c k) ++ sounds.dropWhile (fitsB c k) :=
    (List.takeWhile_append_dropWhile (fitsB c k) sounds).symm
  have hall : ∀ x ∈ sounds.takeWhile (fitsB c k), fitsB c (k + 1) x = true := by
    intro x hx
    exact fitsB_mono hL (Nat.le_succ k) (List.mem_takeWhile_imp hx)
  have hk1 : placedCount c sounds (k + 1)
      = (sounds.takeWhile (fitsB c (k + 1))).length :=
    countP_eq_length_takeWhile hsort (fitsB_downward hspeed)
  rw [hlen, hcondeq, hdrop, htake, hk1]
  conv_rhs => rw [hsplit]
  rw [takeWhile_append_of_all hall, List.length_append]

theorem foldl_max_le_start : ∀ (l : List Sound) (a : Int),
    a ≤ l.foldl (fun m s => max m s.time) a := by
  intro l
  induction l with
  | nil => intro a; exact le_refl a
  | cons b rest ih =>
    intro a
    calc a ≤ max a b.time := le_max_left a b.time
    _ ≤ rest.foldl (fun m s => max m s.time) (max a b.time) := ih (max a b.time)

theorem foldl_max_mem : ∀ (l : List Sound) (a : Int), ∀ x ∈ l,
    x.time ≤ l.foldl (fun m s => max m s.time) a := by
  intro l
  induction l with
  | nil => intro a x hx; exact absurd hx (List.not_mem_nil x)
  | cons b rest ih =>
    intro a x hx
    rcases List.mem_cons.mp hx with hh | hh
    · subst hh
      calc x.time ≤ max a x.time := le_max_right a x.time
      _ ≤ rest.foldl (fun m s => max m s.time) (max a x.time) :=
          foldl_max_le_start rest (max a x.time)
    · exact ih (max a b.time) x hh

theorem le_maxTimeOf {sounds : List Sound} {s : Sound} (hs : s ∈ sounds) :
    s.time ≤ maxTimeOf sounds := by
  cases sounds with
  | nil => exact absurd hs (List.not_mem_nil s)
  | cons s0 rest =>
    unfold maxTimeOf
    rcases List.mem_cons.mp hs with hh | hh
    · subst hh
      exact foldl_max_le_start rest s.time
    · exact foldl_max_mem rest s0.time s hh

theorem placedCount_zero (c : StavesCfg) (sounds : List Sound)
    (hnn : ∀ s ∈ sounds, 0 ≤ s.time) (hspeed : 0 < c.speed)
    (hsw : 0 < c.startWidth) :
    placedCount c sounds 0 = 0 := by
  unfold placedCount
  rw [List.countP_eq_zero]
  intro s hs
  unfold fitsB
  simp only [decide_eq_true_eq]
  push_neg
  push_cast
  rw [zero_mul]
  have h1 : (0 : ℚ) ≤ (s.time : ℚ) / c.speed := by
    apply div_nonneg _ (le_of_lt hspeed)
    exact_mod_cast hnn s hs
  linarith

theorem placedCount_all (c : StavesCfg) (sounds : List Sound)
    (hnn : ∀ s ∈ sounds, 0 ≤ s.time) (hspeed : 0 < c.speed)
    (hL : 0 < staveLength c) (hsw : 0 < c.startWidth)
    {k : Nat} (hk : stavesCount c sounds ≤ k) :
    placedCount c sounds k = sounds.length := by
  unfold placedCount
  rw [show sounds.length = sounds.countP (fun _ => true) from by
    rw [List.countP_true]]
  apply le_antisymm
  · exact List.countP_mono_left (fun s _ _ => rfl)
  · apply List.countP_mono_left
    intro s hs _
    apply fitsB_mono (le_of_lt hL) hk
    unfold fitsB
    rw [decide_eq_true_eq]
    have hts : (s.time : ℚ) / c.speed + c.startWidth ≤ totalLength c sounds := by
      unfold totalLength
      have h1 : (s.time : ℚ) ≤ (maxTimeOf sounds : ℚ) := by
        exact_mod_cast le_maxTimeOf hs
      have h2 : (s.time : ℚ) / c.speed ≤ (maxTimeOf sounds : ℚ) / c.speed := by
        gcongr
      linarith
    have htot : 0 < totalLength c sounds := by
      unfold totalLength
      have h0 : (0 : ℚ) ≤ (maxTimeOf sounds : ℚ) / c.speed := by
        apply div_nonneg _ (le_of_lt hspeed)
        have : (0 : Int) ≤ maxTimeOf sounds :=
          le_trans (hnn s hs) (le_maxTimeOf hs)
        exact_mod_cast this
      linarith
    have hceil : totalLength c sounds ≤ (stavesCount c sounds : ℚ) * staveLength c := by
      unfold stavesCount
      have h1 : totalLength c sounds / staveLength c
          ≤ (⌈totalLength c sounds / staveLength c⌉ : ℚ) := Int.le_ceil _
      have h2 : (0 : Int) ≤ ⌈totalLength c sounds / staveLength c⌉ := by
        apply Int.ceil_nonneg
        positivity
      rw [show ((⌈totalLength c sounds / staveLength c⌉.toNat : Nat) : ℚ)
          = ((⌈totalLength c sounds / staveLength c⌉ : Int) : ℚ) from by
        exact_mod_cast congrArg Int.cast (Int.toNat_of_nonneg h2)]
      rw [← div_le_iff₀ hL]
      exact h1
    linarith

theorem pageLoop_cons_some (c : StavesCfg) (trans : Int) (sounds : List Sound)
    (page stave : Nat) (rest : List Nat) (st : Nat × List (List Punch))
    (ps : List Punch)
    (h : stavePunches c trans sounds (page * stavesPerPage c + stave) st.1 = some ps) :
    pageLoop c trans sounds page (stave :: rest) st
      = if sounds.length ≤ st.1 + ps.length then some (st.1 + ps.length, st.2 ++ [ps])
        else pageLoop c trans sounds page rest (st.1 + ps.length, st.2 ++ [ps]) := by
  simp only [pageLoop]
  rw [h]

theorem pageLoop_cons_none (c : StavesCfg) (trans : Int) (sounds : List Sound)
    (page stave : Nat) (rest : List Nat) (st : Nat × List (List Punch))
    (h : stavePunches c trans sounds (page * stavesPerPage c + stave) st.1 = none) :
    pageLoop c trans sounds page (stave :: rest) st = none := by
  simp only [pageLoop]
  rw [h]

theorem pageLoop_some (c : StavesCfg) (trans : Int) (sounds : List Sound) (page : Nat)
    (hsort : List.Pairwise (fun a b : Sound => a.time ≤ b.time) sounds)
    (hspeed : 0 < c.speed) (hL : 0 ≤ staveLength c)
    (hnotes : ∀ s ∈ sounds, 0 < s.note + trans ∧ s.note + trans < 1000) :
    ∀ (r j : Nat) (st : Nat × List (List Punch)),
      st.1 = placedCount c sounds (page * stavesPerPage c + j) →
      ∃ st2, pageLoop c trans sounds page (List.range' j r) st = some st2 ∧
        st2.1 = placedCount c sounds (page * stavesPerPage c + j + r) := by
  intro r
  induction r with
  | zero =>
    intro j st h
    refine ⟨st, ?_, h⟩
    rw [show List.range' j 0 = [] from rfl]
    rfl
  | succ rr ih =>
    intro j st h
    obtain ⟨ps, hps, hlen⟩ := stavePunches_some c trans sounds
      (page * stavesPerPage c + j) hsort hspeed hL hnotes
    have hps2 : stavePunches c trans sounds (page * stavesPerPage c + j) st.1
        = some ps := by
      rw [h]; exact hps
    have hlen2 : st.1 + ps.length
        = placedCount c sounds (page * stavesPerPage c + j + 1) := by
      rw [h]; exact hlen
    rw [List.range'_succ]
    rw [pageLoop_cons_some c trans sounds page j (List.range' (j + 1) rr) st ps hps2]
    by_cases hbreak : sounds.length ≤ st.1 + ps.length
    · rw [if_pos hbreak]
      refine ⟨(st.1 + ps.length, st.2 ++ [ps]), rfl, ?_⟩
      have hfull : placedCount c sounds (page * stavesPerPage c + j + 1)
          = sounds.length := by
        have hle := placedCount_le c sounds (page * stavesPerPage c + j + 1)
        omega
      have hstable : placedCount c sounds (page * stavesPerPage c + j + (rr + 1))
          = sounds.length := by
        have hmono := @placedCount_mono c sounds (page * stavesPerPage c + j + 1)
          (page * stavesPerPage c + j + (rr + 1)) hL (by omega)
        have hle := placedCount_le c sounds (page * stavesPerPage c + j + (rr + 1))
        omega
      rw [hstable]
      dsimp only
      omega
    · rw [if_neg hbreak]
      obtain ⟨st2, hst2, hval⟩ := ih (j + 1) (st.1 + ps.length, st.2 ++ [ps])
        (by dsimp only
            rw [hlen2]
            exact congrArg (placedCount c sounds) (by omega))
      refine ⟨st2, hst2, ?_⟩
      rw [hval]
      exact congrArg (placedCount c sounds) (by omega)

theorem pageLoop_sum (c : StavesCfg) (trans : Int) (sounds : List Sound) (page : Nat) :
    ∀ (staves : List Nat) (st st2 : Nat × List (List Punch)),
      pageLoop c trans sounds page staves st = some st2 →
      ((st.2).map List.length).sum = st.1 →
      ((st2.2).map List.length).sum = st2.1 := by
  intro staves
  induction staves with
  | nil =>
    intro st st2 hok h
    rw [show pageLoop c trans sounds page [] st = some st from rfl,
      Option.some_inj] at hok
    rw [← hok]
    exact h
  | cons stave rest ih =>
    intro st st2 hok h
    cases hsp : stavePunches c trans sounds (page * stavesPerPage c + stave) st.1 with
    | none =>
      rw [pageLoop_cons_none c trans sounds page stave rest st hsp] at hok
      exact absurd hok (by simp)
    | some ps =>
      rw [pageLoop_cons_some c trans sounds page stave rest st ps hsp] at hok
      by_cases hbreak : sounds.length ≤ st.1 + ps.length
      · rw [if_pos hbreak, Option.some_inj] at hok
        rw [← hok]
        dsimp only
        rw [List.map_append, List.sum_append, h]
        simp
      · rw [if_neg hbreak] at hok
        refine ih _ st2 hok ?_
        dsimp only
        rw [List.map_append, List.sum_append, h]
        simp

theorem pagesStep_some (c : StavesCfg) (trans : Int) (sounds : List Sound)
    (st : Nat × List (List Punch)) (page : Nat) :
    pagesStep c trans sounds (some st) page
      = pageLoop c trans sounds page (List.range (stavesPerPage c)) st := rfl

theorem pagesFold_none (c : StavesCfg) (trans : Int) (sounds : List Sound) :
    ∀ pages : List Nat, pages.foldl (pagesStep c trans sounds) none = none := by
  intro pages
  induction pages with
  | nil => rfl
  | cons page rest ih =>
    rw [List.foldl_cons]
    exact ih

theorem pagesFold_some (c : StavesCfg) (trans : Int) (sounds : List Sound)
    (hsort : List.Pairwise (fun a b : Sound => a.time ≤ b.time) sounds)
    (hspeed : 0 < c.speed) (hL : 0 ≤ staveLength c)
    (hnotes : ∀ s ∈ sounds, 0 < s.note + trans ∧ s.note + trans < 1000) :
    ∀ (np p : Nat) (st : Nat × List (List Punch)),
      st.1 = placedCount c sounds (p * stavesPerPage c) →
      ∃ st2, (List.range' p np).foldl (pagesStep c trans sounds) (some st) = some st2 ∧
        st2.1 = placedCount c sounds ((p + np) * stavesPerPage c) := by
  intro np
  induction np with
  | zero =>
    intro p st h
    refine ⟨st, ?_, ?_⟩
    · rw [show List.range' p 0 = [] from rfl]
      rfl
    · rw [h]
      exact congrArg (placedCount c sounds) (by ring)
  | succ nn ih =>
    intro p st h
    obtain ⟨st1, hst1, hval1⟩ := pageLoop_some c trans sounds p hsort hspeed hL hnotes
      (stavesPerPage c) 0 st (by rw [Nat.add_zero]; exact h)
    have hst1b : pageLoop c trans sounds p (List.range (stavesPerPage c)) st
        = some st1 := by
      rw [show List.range (stavesPerPage c) = List.range' 0 (stavesPerPage c) from
        List.range_eq_range' _]
      exact hst1
    obtain ⟨st2, hst2, hval⟩ := ih (p + 1) st1
      (by rw [hval1]
          exact congrArg (placedCount c sounds) (by ring))
    refine ⟨st2, ?_, ?_⟩
    · rw [List.range'_succ, List.foldl_cons,
        pagesStep_some c trans sounds st p, hst1b]
      exact hst2
    · rw [hval]
      exact congrArg (placedCount c sounds) (by ring)

theorem pagesFold_sum (c : StavesCfg) (trans : Int) (sounds : List Sound) :
    ∀ (pages : List Nat) (st st2 : Nat × List (List Punch)),
      pages.foldl (pagesStep c trans sounds) (some st) = some st2 →
      ((st.2).map List.length).sum = st.1 →
      ((st2.2).map List.length).sum = st2.1 := by
  intro pages
  induction pages with
  | nil =>
    intro st st2 hok h
    rw [List.foldl_nil, Option.some_inj] at hok
    rw [← hok]
    exact h
  | cons page rest ih =>
    intro st st2 hok h
    rw [List.foldl_cons, pagesStep_some c trans sounds st page] at hok
    cases hpl : pageLoop c trans sounds page (List.range (stavesPerPage c)) st with
    | none =>
      rw [hpl, pagesFold_none c trans sounds rest] at hok
      exact absurd hok (by simp)
    | some st1 =>
      rw [hpl] at hok
      exact ih st1 st2 hok (pageLoop_sum c trans sounds page _ st st1 hpl h)

theorem stavesCount_le_pages_mul (c : StavesCfg) (sounds : List Sound)
    (hspp : 1 ≤ stavesPerPage c) :
    stavesCount c sounds ≤ pagesCount c sounds * stavesPerPage c := by
  unfold pagesCount
  have hsppQ : (0 : ℚ) < (stavesPerPage c : ℚ) := by exact_mod_cast hspp
  have h1 : ((stavesCount c sounds : Nat) : ℚ) / (stavesPerPage c : ℚ)
      ≤ (⌈((stavesCount c sounds : Nat) : ℚ) / (stavesPerPage c : ℚ)⌉ : ℚ) := Int.le_ceil _
  have h2 : (0 : Int) ≤ ⌈((stavesCount c sounds : Nat) : ℚ) / (stavesPerPage c : ℚ)⌉ := by
    apply Int.ceil_nonneg
    positivity
  have h3 : ((stavesCount c sounds : Nat) : ℚ)
      ≤ ((⌈((stavesCount c sounds : Nat) : ℚ) / (stavesPerPage c : ℚ)⌉.toNat : Nat) : ℚ)
        * (stavesPerPage c : ℚ) := by
    rw [show ((⌈((stavesCount c sounds : Nat) : ℚ) / (stavesPerPage c : ℚ)⌉.toNat : Nat) : ℚ)
        = ((⌈((stavesCount c sounds : Nat) : ℚ) / (stavesPerPage c : ℚ)⌉ : Int) : ℚ) from by
      exact_mod_cast congrArg Int.cast (Int.toNat_of_nonneg h2)]
    rw [← div_le_iff₀ hsppQ]
    exact h1
  exact_mod_cast h3

/-! ### Claim C1 -/

/-- C1 counterexample: the claim asserts unconditional coverage — every
sound of every melody is emitted as a punch — but `_write_stave` asserts
`note_number > 0` for every punched sound, so a melody containing MIDI note
0 (at shift 0) trips the assertion and the whole write aborts with nothing
emitted; the model returns `none` where the source raises `AssertionError`.
The sound sits at tick 200 (the default `start_pause`), well inside the
first stave, so the punch loop does reach it. -/
theorem C1_counterexample_assert_abort :
    writeAllPages wStaveCex 0 [Sound.mk 0 200 0] = none := by
  have hsp : stavePunches wStaveCex 0 [Sound.mk 0 200 0]
      (0 * stavesPerPage wStaveCex + 0) 0 = none := by
    rw [show (0 * stavesPerPage wStaveCex + 0) = 0 from by omega]
    unfold stavePunches
    rw [show ([Sound.mk 0 200 0].drop 0) = [Sound.mk 0 200 0] from rfl]
    simp only [writeStaveLoop]
    rw [if_neg (not_not_intro (show (0 : ℚ)
        ≤ ((Sound.mk 0 200 0).time : ℚ) / wStaveCex.speed
          - (((0 : Nat) : ℚ) * staveLength wStaveCex - wStaveCex.startWidth) from by
      show (0 : ℚ) ≤ ((200 : Int) : ℚ) / wStaveCex.speed
        - (((0 : Nat) : ℚ) * staveLength wStaveCex - wStaveCex.startWidth)
      norm_num [wStaveCex, staveLength]))]
    rw [if_neg (show ¬ (((Sound.mk 0 200 0).time : ℚ) / wStaveCex.speed
        - (((0 : Nat) : ℚ) * staveLength wStaveCex - wStaveCex.startWidth)
        > staveLength wStaveCex) from by
      show ¬ (((200 : Int) : ℚ) / wStaveCex.speed
        - (((0 : Nat) : ℚ) * staveLength wStaveCex - wStaveCex.startWidth)
        > staveLength wStaveCex)
      norm_num [wStaveCex, staveLength])]
    rw [if_pos (show ¬ (0 < (Sound.mk 0 200 0).note + 0) from by decide)]
  have hspp : stavesPerPage wStaveCex = 4 := by
    norm_num [stavesPerPage, staveWidth, boxWidth, wStaveCex, pyMusicBox]
    decide
  have hsc : stavesCount wStaveCex [Sound.mk 0 200 0] = 1 := by
    have hq : totalLength wStaveCex [Sound.mk 0 200 0] / staveLength wStaveCex
        = 1 / 2 := by
      norm_num [totalLength, maxTimeOf, staveLength, wStaveCex]
    unfold stavesCount
    rw [hq, show ⌈(1 : ℚ) / 2⌉ = 1 from by rw [Int.ceil_eq_iff]; norm_num]
    decide
  have hpc : pagesCount wStaveCex [Sound.mk 0 200 0] = 1 := by
    unfold pagesCount
    rw [hsc, hspp]
    rw [show (((1 : Nat) : ℚ) / ((4 : Nat) : ℚ)) = 1 / 4 from by norm_num]
    rw [show ⌈(1 : ℚ) / 4⌉ = 1 from by rw [Int.ceil_eq_iff]; norm_num]
    decide
  unfold writeAllPages
  rw [hpc]
  rw [show List.range 1 = [0] from by decide]
  rw [List.foldl_cons, List.foldl_nil]
  rw [pagesStep_some wStaveCex 0 [Sound.mk 0 200 0] (0, []) 0]
  rw [hspp]
  rw [show List.range 4 = 0 :: [1, 2, 3] from by decide]
  exact pageLoop_cons_none wStaveCex 0 [Sound.mk 0 200 0] 0 0 [1, 2, 3] (0, []) hsp

/-- C1 (amended): layout coverage holds for every melody whose shifted note
numbers satisfy the punch loop's assertions.  For every time-sorted melody
with non-negative times, every valid geometry (positive speed, stave length
and start width, at least one stave per page), and a shift under which
every note number is strictly between 0 and 1000, running all pages and
staves succeeds (no assertion fires) and advances the shared sound cursor
from 0 to exactly `melody.sounds_count`, with the per-stave punch counts
summing to `melody.sounds_count`: each stave consumes the next contiguous
block of sounds, one punch per sound. -/
theorem C1_layout_coverage_amended (c : StavesCfg) (trans : Int) (sounds : List Sound)
    (hsort : List.Pairwise (fun a b : Sound => a.time ≤ b.time) sounds)
    (hnn : ∀ s ∈ sounds, 0 ≤ s.time)
    (hspeed : 0 < c.speed) (hL : 0 < staveLength c) (hsw : 0 < c.startWidth)
    (hspp : 1 ≤ stavesPerPage c)
    (hnotes : ∀ s ∈ sounds, 0 < s.note + trans ∧ s.note + trans < 1000) :
    ∃ st, writeAllPages c trans sounds = some st ∧
      st.1 = sounds.length ∧ ((st.2).map List.length).sum = sounds.length := by
  obtain ⟨st, hst, hval⟩ := pagesFold_some c trans sounds hsort hspeed (le_of_lt hL)
    hnotes (pagesCount c sounds) 0 (0, [])
    (by rw [Nat.zero_mul]
        exact (placedCount_zero c sounds hnn hspeed hsw).symm)
  have hfold : writeAllPages c trans sounds = some st := by
    unfold writeAllPages
    rw [show List.range (pagesCount c sounds)
      = List.range' 0 (pagesCount c sounds) from List.range_eq_range' _]
    exact hst
  have hlen : st.1 = sounds.length := by
    rw [hval]
    rw [show (0 + pagesCount c sounds) * stavesPerPage c
      = pagesCount c sounds * stavesPerPage c from by ring]
    exact placedCount_all c sounds hnn hspeed hL hsw
      (stavesCount_le_pages_mul c sounds hspp)
  refine ⟨st, hfold, hlen, ?_⟩
  have hsum := pagesFold_sum c trans sounds (List.range' 0 (pagesCount c sounds))
    (0, []) st hst (by simp)
  rw [hsum]
  exact hlen

/-- Witness for C1 (amended): both sounds of the two-sound melody are
placed (the write succeeds, the cursor ends at 2 and the per-stave punch
counts sum to 2). -/
theorem C1_layout_coverage_amended_witness :
    ∃ st, writeAllPages wStave1 0 wSounds = some st ∧
      st.1 = wSounds.length ∧ ((st.2).map List.length).sum = wSounds.length :=
  C1_layout_coverage_amended wStave1 0 wSounds (by decide) (by decide)
    (by norm_num [wStave1])
    (by norm_num [wStave1, staveLength])
    (by norm_num [wStave1])
    (by norm_num [wStave1, stavesPerPage, staveWidth, boxWidth, pyMusicBox])
    (by decide)

/-! ### Claim C6 -/

/-- C6: collision flagging.  Starting a stave with an empty per-line
tracker, three same-line in-range sounds that pass the loop's assertions
(non-negative offsets, note number strictly between 0 and 1000) produce:
an accepted first punch; a second punch flagged "too close" (when within
`min_distance` of the first) which does not update the tracked offset; and
a third punch whose flag is decided against the *first* punch's offset, not
the flagged second one's. -/
theorem C6_collision_flagging (c : StavesCfg) (trans : Int) (ot : ℚ)
    (s1 s2 s3 : Sound) (h21 : s2.note = s1.note) (h31 : s3.note = s1.note)
    (h1 : ¬ ((s1.time : ℚ) / c.speed - ot > staveLength c))
    (h2 : ¬ ((s2.time : ℚ) / c.speed - ot > staveLength c))
    (h3 : ¬ ((s3.time : ℚ) / c.speed - ot > staveLength c))
    (h01 : 0 ≤ (s1.time : ℚ) / c.speed - ot)
    (h02 : 0 ≤ (s2.time : ℚ) / c.speed - ot)
    (h03 : 0 ≤ (s3.time : ℚ) / c.speed - ot)
    (hn1 : 0 < s1.note + trans) (hn2 : s1.note + trans < 1000)
    (hclose : (s2.time : ℚ) / c.speed - ot - ((s1.time : ℚ) / c.speed - ot)
      < c.box.minDistance) :
    writeStaveLoop c trans ot [s1, s2, s3] (fun _ => none)
      = some [Punch.mk ((s1.time : ℚ) / c.speed - ot)
          (resolveNote c.box (s1.note + trans)).1
          (resolveNote c.box (s1.note + trans)).2 false,
        Punch.mk ((s2.time : ℚ) / c.speed - ot) (resolveNote c.box (s1.note + trans)).1
          (resolveNote c.box (s1.note + trans)).2 true,
        Punch.mk ((s3.time : ℚ) / c.speed - ot) (resolveNote c.box (s1.note + trans)).1
          (resolveNote c.box (s1.note + trans)).2
          (decide ((s3.time : ℚ) / c.speed - ot - ((s1.time : ℚ) / c.speed - ot)
            < c.box.minDistance))] := by
  have hn21 : 0 < s2.note + trans := by rw [h21]; exact hn1
  have hn22 : s2.note + trans < 1000 := by rw [h21]; exact hn2
  have hn31 : 0 < s3.note + trans := by rw [h31]; exact hn1
  have hn32 : s3.note + trans < 1000 := by rw [h31]; exact hn2
  have hpos2 : resolveNote c.box (s2.note + trans)
      = resolveNote c.box (s1.note + trans) := by
    rw [h21]
  have hpos3 : resolveNote c.box (s3.note + trans)
      = resolveNote c.box (s1.note + trans) := by
    rw [h31]
  have hprev2 : (fun p => if p = (resolveNote c.box (s1.note + trans)).1
      then some ((s1.time : ℚ) / c.speed - ot) else (fun _ : Nat => (none : Option ℚ)) p)
        (resolveNote c.box (s2.note + trans)).1
      = some ((s1.time : ℚ) / c.speed - ot) := by
    rw [hpos2]
    simp
  have hprev3 : (fun p => if p = (resolveNote c.box (s1.note + trans)).1
      then some ((s1.time : ℚ) / c.speed - ot) else (fun _ : Nat => (none : Option ℚ)) p)
        (resolveNote c.box (s3.note + trans)).1
      = some ((s1.time : ℚ) / c.speed - ot) := by
    rw [hpos3]
    simp
  have hL1at : (fun p => if p = (resolveNote c.box (s1.note + trans)).1
      then some ((s1.time : ℚ) / c.speed - ot) else (fun _ : Nat => (none : Option ℚ)) p)
        (resolveNote c.box (s1.note + trans)).1
      = some ((s1.time : ℚ) / c.speed - ot) := by
    simp
  have e3 : writeStaveLoop c trans ot [s3]
      (fun p => if p = (resolveNote c.box (s1.note + trans)).1
        then some ((s1.time : ℚ) / c.speed - ot) else (fun _ : Nat => (none : Option ℚ)) p)
      = some [Punch.mk ((s3.time : ℚ) / c.speed - ot)
          (resolveNote c.box (s3.note + trans)).1
          (resolveNote c.box (s3.note + trans)).2
          (tooCloseFlag c (resolveNote c.box (s3.note + trans)).1
            ((s3.time : ℚ) / c.speed - ot)
            (fun p => if p = (resolveNote c.box (s1.note + trans)).1
              then some ((s1.time : ℚ) / c.speed - ot)
              else (fun _ : Nat => (none : Option ℚ)) p))] :=
    writeStaveLoop_cons_ok c trans ot s3 [] _ [] h03 h3 hn31 hn32 rfl
  have e2 : writeStaveLoop c trans ot [s2, s3]
      (fun p => if p = (resolveNote c.box (s1.note + trans)).1
        then some ((s1.time : ℚ) / c.speed - ot) else (fun _ : Nat => (none : Option ℚ)) p)
      = some [Punch.mk ((s2.time : ℚ) / c.speed - ot)
          (resolveNote c.box (s2.note + trans)).1
          (resolveNote c.box (s2.note + trans)).2
          (tooCloseFlag c (resolveNote c.box (s2.note + trans)).1
            ((s2.time : ℚ) / c.speed - ot)
            (fun p => if p = (resolveNote c.box (s1.note + trans)).1
              then some ((s1.time : ℚ) / c.speed - ot)
              else (fun _ : Nat => (none : Option ℚ)) p)),
        Punch.mk ((s3.time : ℚ) / c.speed - ot)
          (resolveNote c.box (s3.note + trans)).1
          (resolveNote c.box (s3.note + trans)).2
          (tooCloseFlag c (resolveNote c.box (s3.note + trans)).1
            ((s3.time : ℚ) / c.speed - ot)
            (fun p => if p = (resolveNote c.box (s1.note + trans)).1
              then some ((s1.time : ℚ) / c.speed - ot)
              else (fun _ : Nat => (none : Option ℚ)) p))] := by
    apply writeStaveLoop_cons_ok c trans ot s2 [s3] _ _ h02 h2 hn21 hn22
    rw [trackerUpdate_some hprev2, if_pos hclose]
    exact e3
  have e1 : writeStaveLoop c trans ot [s1, s2, s3] (fun _ : Nat => (none : Option ℚ))
      = some [Punch.mk ((s1.time : ℚ) / c.speed - ot)
          (resolveNote c.box (s1.note + trans)).1
          (resolveNote c.box (s1.note + trans)).2
          (tooCloseFlag c (resolveNote c.box (s1.note + trans)).1
            ((s1.time : ℚ) / c.speed - ot) (fun _ : Nat => (none : Option ℚ))),
        Punch.mk ((s2.time : ℚ) / c.speed - ot)
          (resolveNote c.box (s2.note + trans)).1
          (resolveNote c.box (s2.note + trans)).2
          (tooCloseFlag c (resolveNote c.box (s2.note + trans)).1
            ((s2.time : ℚ) / c.speed - ot)
            (fun p => if p = (resolveNote c.box (s1.note + trans)).1
              then some ((s1.time : ℚ) / c.speed - ot)
              else (fun _ : Nat => (none : Option ℚ)) p)),
        Punch.mk ((s3.time : ℚ) / c.speed - ot)
          (resolveNote c.box (s3.note + trans)).1
          (resolveNote c.box (s3.note + trans)).2
          (tooCloseFlag c (resolveNote c.box (s3.note + trans)).1
            ((s3.time : ℚ) / c.speed - ot)
            (fun p => if p = (resolveNote c.box (s1.note + trans)).1
              then some ((s1.time : ℚ) / c.speed - ot)
              else (fun _ : Nat => (none : Option ℚ)) p))] := by
    apply writeStaveLoop_cons_ok c trans ot s1 [s2, s3] _ _ h01 h1 hn1 hn2
    rw [show trackerUpdate c (resolveNote c.box (s1.note + trans)).1
        ((s1.time : ℚ) / c.speed - ot) (fun _ : Nat => (none : Option ℚ))
        = fun p => if p = (resolveNote c.box (s1.note + trans)).1
          then some ((s1.time : ℚ) / c.speed - ot)
          else (fun _ : Nat => (none : Option ℚ)) p
      from trackerUpdate_none rfl]
    exact e2
  have hflag1 : tooCloseFlag c (resolveNote c.box (s1.note + trans)).1
      ((s1.time : ℚ) / c.speed - ot) (fun _ : Nat => (none : Option ℚ)) = false :=
    tooCloseFlag_none rfl
  have hflag2 : tooCloseFlag c (resolveNote c.box (s1.note + trans)).1
      ((s2.time : ℚ) / c.speed - ot)
      (fun p => if p = (resolveNote c.box (s1.note + trans)).1
        then some ((s1.time : ℚ) / c.speed - ot)
        else (fun _ : Nat => (none : Option ℚ)) p) = true := by
    rw [tooCloseFlag_some hL1at]
    exact decide_eq_true hclose
  have hflag3 : tooCloseFlag c (resolveNote c.box (s1.note + trans)).1
      ((s3.time : ℚ) / c.speed - ot)
      (fun p => if p = (resolveNote c.box (s1.note + trans)).1
        then some ((s1.time : ℚ) / c.speed - ot)
        else (fun _ : Nat => (none : Option ℚ)) p)
      = decide ((s3.time : ℚ) / c.speed - ot - ((s1.time : ℚ) / c.speed - ot)
        < c.box.minDistance) :=
    tooCloseFlag_some hL1at
  rw [e1, hpos2, hpos3, hflag1, hflag2, hflag3]

/-- Witness for C6: three sounds on the same line at offsets 1, 4 and 10 mm
(minimum distance 8): the second is flagged, the third is compared against
the first and accepted. -/
theorem C6_collision_flagging_witness :
    writeStaveLoop wStave2 0 0 [Sound.mk 72 1 0, Sound.mk 72 4 0, Sound.mk 72 10 0]
      (fun _ => none)
      = some [Punch.mk (((Sound.mk 72 1 0).time : ℚ) / wStave2.speed - 0)
          (resolveNote wStave2.box ((Sound.mk 72 1 0).note + 0)).1
          (resolveNote wStave2.box ((Sound.mk 72 1 0).note + 0)).2 false,
        Punch.mk (((Sound.mk 72 4 0).time : ℚ) / wStave2.speed - 0)
          (resolveNote wStave2.box ((Sound.mk 72 1 0).note + 0)).1
          (resolveNote wStave2.box ((Sound.mk 72 1 0).note + 0)).2 true,
        Punch.mk (((Sound.mk 72 10 0).time : ℚ) / wStave2.speed - 0)
          (resolveNote wStave2.box ((Sound.mk 72 1 0).note + 0)).1
          (resolveNote wStave2.box ((Sound.mk 72 1 0).note + 0)).2
          (decide (((Sound.mk 72 10 0).time : ℚ) / wStave2.speed - 0
            - (((Sound.mk 72 1 0).time : ℚ) / wStave2.speed - 0)
              < wStave2.box.minDistance))] :=
  C6_collision_flagging wStave2 0 0 (Sound.mk 72 1 0) (Sound.mk 72 4 0) (Sound.mk 72 10 0)
    rfl rfl
    (by show ¬ (((1 : Int) : ℚ) / wStave2.speed - 0 > staveLength wStave2)
        norm_num [wStave2, staveLength])
    (by show ¬ (((4 : Int) : ℚ) / wStave2.speed - 0 > staveLength wStave2)
        norm_num [wStave2, staveLength])
    (by show ¬ (((10 : Int) : ℚ) / wStave2.speed - 0 > staveLength wStave2)
        norm_num [wStave2, staveLength])
    (by show (0 : ℚ) ≤ ((1 : Int) : ℚ) / wStave2.speed - 0
        norm_num [wStave2])
    (by show (0 : ℚ) ≤ ((4 : Int) : ℚ) / wStave2.speed - 0
        norm_num [wStave2])
    (by show (0 : ℚ) ≤ ((10 : Int) : ℚ) / wStave2.speed - 0
        norm_num [wStave2])
    (by decide)
    (by decide)
    (by show ((4 : Int) : ℚ) / wStave2.speed - 0 - (((1 : Int) : ℚ) / wStave2.speed - 0)
          < wStave2.box.minDistance
        norm_num [wStave2, pyMusicBox])

/-! ### Claim C10 -/

theorem writeStaveLoop_first_unflagged (c : StavesCfg) (trans : Int) (ot : ℚ) :
    ∀ (l : List Sound) (latest : Nat → Option ℚ) (ps : List Punch)
      (pos : Nat) (p : Punch),
      latest pos = none →
      writeStaveLoop c trans ot l latest = some ps →
      (ps.filter (fun q => q.notePos = pos)).head? = some p →
      p.tooClose = false := by
  intro l
  induction l with
  | nil =>
    intro latest ps pos p _ hok hp
    rw [show writeStaveLoop c trans ot [] latest = some [] from rfl,
      Option.some_inj] at hok
    subst hok
    exact absurd hp (by simp)
  | cons s rest ih =>
    intro latest ps pos p hnone hok hp
    by_cases h0 : 0 ≤ (s.time : ℚ) / c.speed - ot
    · by_cases hso : (s.time : ℚ) / c.speed - ot > staveLength c
      · rw [show writeStaveLoop c trans ot (s :: rest) latest = some [] from by
          simp only [writeStaveLoop]
          rw [if_neg (not_not_intro h0), if_pos hso]] at hok
        rw [Option.some_inj] at hok
        subst hok
        exact absurd hp (by simp)
      · by_cases hb1 : 0 < s.note + trans
        · by_cases hb2 : s.note + trans < 1000
          · cases hrec : writeStaveLoop c trans ot rest
                (trackerUpdate c (resolveNote c.box (s.note + trans)).1
                  ((s.time : ℚ) / c.speed - ot) latest) with
            | none =>
              rw [writeStaveLoop_cons_none c trans ot s rest latest
                h0 hso hb1 hb2 hrec] at hok
              exact absurd hok (by simp)
            | some ps2 =>
              rw [writeStaveLoop_cons_ok c trans ot s rest latest ps2
                h0 hso hb1 hb2 hrec, Option.some_inj] at hok
              subst hok
              by_cases hpos : (resolveNote c.box (s.note + trans)).1 = pos
              · rw [List.filter_cons_of_pos (by simp [hpos])] at hp
                rw [List.head?_cons, Option.some_inj] at hp
                rw [← hp]
                show tooCloseFlag c (resolveNote c.box (s.note + trans)).1
                  ((s.time : ℚ) / c.speed - ot) latest = false
                apply tooCloseFlag_none
                rw [hpos]
                exact hnone
              · rw [List.filter_cons_of_neg (by simp [hpos])] at hp
                refine ih _ ps2 pos p ?_ hrec hp
                rw [trackerUpdate_other (fun hh => hpos hh.symm)]
                exact hnone
          · rw [show writeStaveLoop c trans ot (s :: rest) latest = none from by
              simp only [writeStaveLoop]
              rw [if_neg (not_not_intro h0), if_neg hso, if_neg (not_not_intro hb1),
                if_pos hb2]] at hok
            exact absurd hok (by simp)
        · rw [show writeStaveLoop c trans ot (s :: rest) latest = none from by
            simp only [writeStaveLoop]
            rw [if_neg (not_not_intro h0), if_neg hso, if_pos hb1]] at hok
          exact absurd hok (by simp)
    · rw [show writeStaveLoop c trans ot (s :: rest) latest = none from by
        simp only [writeStaveLoop]
        rw [if_pos h0]] at hok
      exact absurd hok (by simp)

/-- C10: the per-line collision tracker is re-initialized empty at the
start of every stave (`_write_stave` creates a fresh `latest_notes` dict),
so whenever a stave's punch loop completes without tripping an assertion,
the first punch it emits on a given line is never flagged "too close" — in
particular it is never flagged against a punch placed on an earlier stave,
however small their separation along the strip. -/
theorem C10_fresh_collision_window (c : StavesCfg) (trans : Int)
    (sounds : List Sound) (k offset pos : Nat) (ps : List Punch) (p : Punch)
    (hok : stavePunches c trans sounds k offset = some ps)
    (h : (ps.filter (fun q => q.notePos = pos)).head? = some p) :
    p.tooClose = false :=
  writeStaveLoop_first_unflagged c trans
    ((k : ℚ) * staveLength c - c.startWidth) (sounds.drop offset)
    (fun _ => none) ps pos p rfl hok h

/-- Witness for C10: the single punch of a one-sound stave lands on line 14
and is accepted. -/
theorem C10_fresh_collision_window_witness :
    stavePunches wStave2 0 [Sound.mk 72 1 0] 0 0
      = some [Punch.mk (((1 : Int) : ℚ) / wStave2.speed
          - (((0 : Nat) : ℚ) * staveLength wStave2 - wStave2.startWidth)) 14 true false] ∧
    (Punch.mk (((1 : Int) : ℚ) / wStave2.speed
        - (((0 : Nat) : ℚ) * staveLength wStave2 - wStave2.startWidth)) 14 true false).tooClose
      = false := by
  have hres : resolveNote wStave2.box ((Sound.mk 72 1 0).note + 0) = (14, true) := by
    unfold resolveNote
    rw [if_pos (by decide)]
    decide
  have h0 : (0 : ℚ) ≤ ((Sound.mk 72 1 0).time : ℚ) / wStave2.speed
      - (((0 : Nat) : ℚ) * staveLength wStave2 - wStave2.startWidth) := by
    show (0 : ℚ) ≤ ((1 : Int) : ℚ) / wStave2.speed
      - (((0 : Nat) : ℚ) * staveLength wStave2 - wStave2.startWidth)
    norm_num [wStave2, staveLength]
  have hso : ¬ (((Sound.mk 72 1 0).time : ℚ) / wStave2.speed
      - (((0 : Nat) : ℚ) * staveLength wStave2 - wStave2.startWidth)
      > staveLength wStave2) := by
    show ¬ (((1 : Int) : ℚ) / wStave2.speed
      - (((0 : Nat) : ℚ) * staveLength wStave2 - wStave2.startWidth) > staveLength wStave2)
    norm_num [wStave2, staveLength]
  have hok : stavePunches wStave2 0 [Sound.mk 72 1 0] 0 0
      = some [Punch.mk (((1 : Int) : ℚ) / wStave2.speed
          - (((0 : Nat) : ℚ) * staveLength wStave2 - wStave2.startWidth)) 14 true false] := by
    unfold stavePunches
    rw [show ([Sound.mk 72 1 0].drop 0) = [Sound.mk 72 1 0] from rfl]
    rw [writeStaveLoop_cons_ok wStave2 0
      (((0 : Nat) : ℚ) * staveLength wStave2 - wStave2.startWidth)
      (Sound.mk 72 1 0) [] (fun _ => none) [] h0 hso (by decide) (by decide) rfl]
    rw [hres]
    rfl
  have hfilter : (([Punch.mk (((1 : Int) : ℚ) / wStave2.speed
      - (((0 : Nat) : ℚ) * staveLength wStave2 - wStave2.startWidth)) 14 true false]).filter
      (fun q => q.notePos = 14)).head?
      = some (Punch.mk (((1 : Int) : ℚ) / wStave2.speed
          - (((0 : Nat) : ℚ) * staveLength wStave2 - wStave2.startWidth)) 14 true false) := by
    rw [List.filter_cons_of_pos (by decide)]
    rfl
  exact ⟨hok, C10_fresh_collision_window wStave2 0 [Sound.mk 72 1 0] 0 0 14 _ _ hok hfilter⟩

end Punchline
